import Mathlib

/-!
# Verification of the sops tree-encryption engine (Python implementation)

A shallow embedding, in Lean 4, of the core of `sops/__init__.py`:
the dotted-numeric version comparator, the per-leaf AEAD encrypt/decrypt
operations, the recursive tree walks with their running SHA-512 integrity
digest, the `sops` metadata-branch management (`verify_or_create_sops_branch`,
`add_new_master_keys`, `remove_master_keys`, `update_master_keys`,
`get_key`) and the nonexistent-file checks of `main`.

Modelling conventions, used throughout:

* Byte strings are modelled at code-point granularity as `List Char`
  (`Bytes`); Python's `str.encode('utf-8')` becomes `String.data` and
  `bytes.decode('utf-8')` becomes `String.mk`.  Both the real UTF-8 coding
  and this model are injective, which is the only property the verified
  claims depend on.
* Python floats are modelled by their canonical `repr` string (`repr` is
  injective on floats and `float(repr(f)) == f`, so the quotient is exact
  for every value reachable in the verified pipelines).
* AES-256-GCM is modelled symbolically as perfect authenticated
  encryption: the ciphertext carries the plaintext and the tag binds
  (key, iv, aad, ciphertext); decryption succeeds exactly when the stored
  tag matches the recomputed one.
* SHA-512's `hexdigest().upper()` is modelled as an injective rendering of
  the accumulated byte stream into the uppercase-hexadecimal alphabet
  (an ideal collision-free hash).
* base64 is modelled as an injective, delimiter-free encoding of a byte
  string into characters of the base64 alphabet (decimal digits separated
  by a slash); like real base64 it produces no `,`, `:`, `]` or newline,
  which is what the token grammar relies on.
-/

namespace Sops

/-- Fatal outcomes of an invocation: `exit c` models `panic(msg, c)`
(which calls `sys.exit(c)`); `pyExn` models an uncaught Python exception
(`KeyError`, `AttributeError`, `InvalidTag`, `ValueError`, ...). -/
inductive SopsError where
  | exit (code : Nat)
  | pyExn
  deriving DecidableEq, Repr

/-! ## Decimal numerals: Python `str` on integers and `int()` parsing -/

/-- The ten decimal digit characters. -/
def decDigits : List Char := ['0', '1', '2', '3', '4', '5', '6', '7', '8', '9']

/-- The decimal digit character for `n` (callers only use `n < 10`). -/
def digitChar : Nat → Char
  | 0 => '0' | 1 => '1' | 2 => '2' | 3 => '3' | 4 => '4'
  | 5 => '5' | 6 => '6' | 7 => '7' | 8 => '8' | _ => '9'

/-- Numeric value of a decimal digit character. -/
def digitVal (c : Char) : Nat := c.toNat - 48

/-- Decimal digits of `n`, most significant first (Python `str(n)` for
a nonnegative `n`). -/
def natDigits (n : Nat) : List Char :=
  if _h : n < 10 then [digitChar n]
  else natDigits (n / 10) ++ [digitChar (n % 10)]
termination_by n
decreasing_by exact Nat.div_lt_self (by omega) (by omega)

/-- Fold a digit list into the natural number it denotes. -/
def digitsVal (cs : List Char) : Nat :=
  cs.foldl (fun a c => a * 10 + digitVal c) 0

/-- Parse an all-digit, nonempty character list (the digits part of
Python `int()`). -/
def parseDigits? (cs : List Char) : Option Nat :=
  if cs ≠ [] ∧ cs.all Char.isDigit then some (digitsVal cs) else none

/-- Python `int(s)` on a stripped string: optional sign, then decimal
digits; anything else raises `ValueError` (modelled as `none`). -/
def pyParseInt? : List Char → Option Int
  | [] => none
  | c :: cs =>
    if c = '-' then (parseDigits? cs).map (fun m => -(Int.ofNat m))
    else if c = '+' then (parseDigits? cs).map Int.ofNat
    else (parseDigits? (c :: cs)).map Int.ofNat

/-- Python `str(n)` for an integer `n`. -/
def pyIntStr (n : Int) : List Char :=
  if n < 0 then '-' :: natDigits n.natAbs else natDigits n.toNat

theorem digitVal_digitChar {n : Nat} (h : n < 10) : digitVal (digitChar n) = n := by
  interval_cases n <;> rfl

theorem digitChar_mem_decDigits {n : Nat} (h : n < 10) : digitChar n ∈ decDigits := by
  interval_cases n <;> decide

theorem mem_decDigits_isDigit {c : Char} (h : c ∈ decDigits) : c.isDigit = true := by
  fin_cases h <;> decide

theorem mem_decDigits_ne_sign {c : Char} (h : c ∈ decDigits) : c ≠ '-' ∧ c ≠ '+' := by
  fin_cases h <;> exact ⟨by decide, by decide⟩

theorem natDigits_ne_nil (n : Nat) : natDigits n ≠ [] := by
  unfold natDigits
  split <;> simp

theorem natDigits_mem (n : Nat) : ∀ c ∈ natDigits n, c ∈ decDigits := by
  induction n using Nat.strong_induction_on with
  | _ n ih =>
    unfold natDigits
    split
    · next h => intro c hc; simp at hc; subst hc; exact digitChar_mem_decDigits h
    · next h =>
      intro c hc
      simp only [List.mem_append, List.mem_singleton] at hc
      rcases hc with hc | hc
      · exact ih (n / 10) (Nat.div_lt_self (by omega) (by omega)) c hc
      · subst hc; exact digitChar_mem_decDigits (Nat.mod_lt _ (by omega))

theorem foldl_digits_natDigits (n : Nat) :
    ∀ a : Nat, (natDigits n).foldl (fun a c => a * 10 + digitVal c) a =
      a * 10 ^ (natDigits n).length + n := by
  induction n using Nat.strong_induction_on with
  | _ n ih =>
    intro a
    unfold natDigits
    split
    · next h => simp [digitVal_digitChar h]
    · next h =>
      rw [List.foldl_append, List.length_append,
        ih (n / 10) (Nat.div_lt_self (by omega) (by omega)) a]
      simp only [List.foldl_cons, List.foldl_nil, List.length_cons, List.length_nil]
      rw [digitVal_digitChar (Nat.mod_lt _ (by omega))]
      have hdm := Nat.div_add_mod n 10
      rw [pow_succ]
      ring_nf
      omega

theorem digitsVal_natDigits (n : Nat) : digitsVal (natDigits n) = n := by
  unfold digitsVal
  rw [foldl_digits_natDigits n 0]
  simp

theorem parseDigits?_natDigits (n : Nat) : parseDigits? (natDigits n) = some n := by
  unfold parseDigits?
  rw [if_pos ⟨natDigits_ne_nil n,
    List.all_eq_true.mpr (fun c hc => mem_decDigits_isDigit (natDigits_mem n c hc))⟩,
    digitsVal_natDigits]

theorem pyParseInt?_pyIntStr (n : Int) : pyParseInt? (pyIntStr n) = some n := by
  unfold pyIntStr
  split
  · next h =>
    have hs : pyParseInt? ('-' :: natDigits n.natAbs) =
        (parseDigits? (natDigits n.natAbs)).map (fun m => -(Int.ofNat m)) := rfl
    rw [hs, parseDigits?_natDigits]
    simp only [Option.map_some']
    congr 1
    show -((n.natAbs : Int)) = n
    omega
  · next h =>
    rcases hd : natDigits n.toNat with _ | ⟨c, cs⟩
    · exact absurd hd (natDigits_ne_nil _)
    · have hmem : c ∈ decDigits := by
        apply natDigits_mem n.toNat; rw [hd]; simp
      have hne := mem_decDigits_ne_sign hmem
      simp only [pyParseInt?, if_neg hne.1, if_neg hne.2, ← hd,
        parseDigits?_natDigits, Option.map_some']
      congr 1
      show ((n.toNat : Int)) = n
      omega

/-! ## Python `str.split` on a single-character separator -/

/-- Python `s.split(sep)` for a one-character separator: `""` yields
`[""]`, adjacent separators yield empty components. -/
def splitOnChar (sep : Char) : List Char → List (List Char)
  | [] => [[]]
  | c :: cs =>
    if c = sep then [] :: splitOnChar sep cs
    else
      match splitOnChar sep cs with
      | x :: xs => (c :: x) :: xs
      | [] => [[c]]

/-! ## `A_is_newer_than_B` (source lines 1375–1394) -/

/-- Python `int(s)` where the source lets a `ValueError` escape; the
`0` default is unreachable in every theorem below (they all require
numeric components). -/
def pyIntD (cs : List Char) : Int := (pyParseInt? cs).getD 0

/-- The comparison loop of `A_is_newer_than_B`: walks the paired integer
components; returns `True` the moment a component of `A` exceeds the one
of `B` (note: it does **not** stop early when a component of `A` is
smaller — it only clears `is_equal`); after the shared components, returns
`is_equal and len(A_comp) > len(B_comp)`. -/
def verCmpLoop : List Int → List Int → Bool → Nat → Nat → Bool
  | a :: as, b :: bs, isEq, la, lb =>
    if a > b then true
    else verCmpLoop as bs (isEq && decide (a = b)) la lb
  | _, _, isEq, la, lb => isEq && decide (la > lb)

/-- The integer components of a dotted version string, as the source
computes them: split on `.`, convert each component with `int()`. -/
def verComps (s : String) : List Int :=
  (splitOnChar '.' s.data).map pyIntD

/-- `A_is_newer_than_B` (semver-ish comparison of two dotted version
strings), translated from the source. -/
def A_is_newer_than_B (A B : String) : Bool :=
  let Ac := verComps A
  let Bc := verComps B
  verCmpLoop Ac Bc true Ac.length Bc.length

/-- A version string all of whose dot-separated components are nonempty
digit strings (the claim's "dotted-numeric" precondition; on anything
else the source's `int()` raises). -/
def dottedNumeric (s : String) : Bool :=
  (splitOnChar '.' s.data).all (fun c => !c.isEmpty && c.all Char.isDigit)

/-- The spec's characterization of the comparator: `A` is newer iff at the
first index where the component lists differ `A`'s entry is larger, or all
shared components are equal and `A` has strictly more components.  Stated
over the component lists; used to compare against the code's actual
behaviour. -/
def specFirstDiffNewer : List Int → List Int → Bool
  | a :: as, b :: bs =>
    if a = b then specFirstDiffNewer as bs
    else decide (a > b)
  | as, [] => decide (as ≠ [])
  | [], _ :: _ => false

/-- What the code actually implements: some shared-index component of `A`
strictly exceeds `B`'s (even if an earlier component was smaller), or all
shared components are equal and `A` is strictly longer. -/
def anyGreaterNewer (as bs : List Int) : Bool :=
  (as.zip bs).any (fun p => decide (p.1 > p.2)) ||
    ((as.zip bs).all (fun p => decide (p.1 = p.2)) && decide (as.length > bs.length))

theorem verCmpLoop_characterization :
    ∀ (as bs : List Int) (isEq : Bool) (la lb : Nat),
      verCmpLoop as bs isEq la lb =
        ((as.zip bs).any (fun p => decide (p.1 > p.2)) ||
          (isEq && (as.zip bs).all (fun p => decide (p.1 = p.2)) && decide (la > lb))) := by
  intro as
  induction as with
  | nil => intro bs isEq la lb; cases bs <;> simp [verCmpLoop]
  | cons a as ih =>
    intro bs isEq la lb
    cases bs with
    | nil => simp [verCmpLoop]
    | cons b bs =>
      simp only [verCmpLoop]
      split
      · next h => simp [List.zip_cons_cons, List.any_cons, h]
      · next h =>
        rw [ih]
        have h1 : decide (a > b) = false := decide_eq_false h
        simp only [List.zip_cons_cons, List.any_cons, List.all_cons, h1,
          Bool.false_or, Bool.and_assoc]

/-- In terms of the claim: the code returns true iff **some** shared-index
component of `A` exceeds `B`'s, or all shared are equal and `A` longer. -/
theorem A_is_newer_than_B_eq (A B : String) :
    A_is_newer_than_B A B = anyGreaterNewer (verComps A) (verComps B) := by
  unfold A_is_newer_than_B anyGreaterNewer
  rw [verCmpLoop_characterization]
  simp

/-- `C4` counterexample: the claim's "first index where the components
differ" rule says `0.2` is **not** newer than `1.1` (first difference:
`0 < 1`), but the source's loop keeps scanning after a smaller component
and returns `True` on the later `2 > 1`. -/
theorem C4_counterexample_first_difference :
    A_is_newer_than_B "0.2" "1.1" = true ∧
      specFirstDiffNewer (verComps "0.2") (verComps "1.1") = false := by
  constructor <;> decide

/-- `C4` (amended): for dotted-numeric version strings,
`A_is_newer_than_B A B` returns true exactly when **some** shared-index
integer component of `A` strictly exceeds `B`'s — the scan does not stop
at the first difference — or when all shared components are equal and `A`
has strictly more components; the claim's six examples
(`1.9`>`1.8`, `2.1`>`1.8`, `1.7`<`1.8`, `1.8.2`>`1.8`, `1.7.9`<`1.8`,
`1.7`<`1.8.1`) all hold. -/
theorem C4_version_comparator (A B : String)
    (_hA : dottedNumeric A = true) (_hB : dottedNumeric B = true) :
    (A_is_newer_than_B A B = anyGreaterNewer (verComps A) (verComps B)) ∧
      A_is_newer_than_B "1.9" "1.8" = true ∧
      A_is_newer_than_B "2.1" "1.8" = true ∧
      A_is_newer_than_B "1.7" "1.8" = false ∧
      A_is_newer_than_B "1.8.2" "1.8" = true ∧
      A_is_newer_than_B "1.7.9" "1.8" = false ∧
      A_is_newer_than_B "1.7" "1.8.1" = false := by
  exact ⟨A_is_newer_than_B_eq A B, by decide, by decide, by decide, by decide,
    by decide, by decide⟩

/-- Witness for `C4_version_comparator` at `A = "1.8.2"`, `B = "1.8"`. -/
theorem C4_version_comparator_witness :
    dottedNumeric "1.8.2" = true ∧ dottedNumeric "1.8" = true ∧
      (A_is_newer_than_B "1.8.2" "1.8" =
        anyGreaterNewer (verComps "1.8.2") (verComps "1.8")) :=
  ⟨by decide, by decide, (C4_version_comparator "1.8.2" "1.8" (by decide) (by decide)).1⟩

/-! ## Python values and document trees -/

/-- Byte strings, at code-point granularity (see the header comment). -/
abbrev Bytes := List Char

/-- A Python scalar as it occurs at a tree leaf.  `vfloat` stores the
float's canonical `repr` string; `vnone` is Python `None` (a YAML null). -/
inductive PyVal where
  | vstr (s : String)
  | vbool (b : Bool)
  | vint (n : Int)
  | vfloat (r : String)
  | vbytes (b : Bytes)
  | vnone
  deriving DecidableEq, Repr

/-- A document tree node: an ordered key→value mapping (Python
`OrderedDict` / ruamel round-trip dict), an ordered sequence, or a
scalar leaf. -/
inductive Tree where
  | scalar (v : PyVal)
  | map (entries : List (String × Tree))
  | arr (items : List Tree)
  deriving Repr

/-- The entry list of a mapping node (what the walk functions call a
`branch`). -/
abbrev Branch := List (String × Tree)

/-- Python truthiness of a scalar. -/
def pyTruthy : PyVal → Bool
  | .vstr s => !s.data.isEmpty
  | .vbool b => b
  | .vint n => decide (n ≠ 0)
  | .vfloat r => decide (r ≠ "0.0" ∧ r ≠ "-0.0")
  | .vbytes b => !b.isEmpty
  | .vnone => false

/-- Python truthiness of a tree node (empty containers are falsy). -/
def Tree.truthy : Tree → Bool
  | .scalar v => pyTruthy v
  | .map m => !m.isEmpty
  | .arr l => !l.isEmpty

/-- `isinstance(value, bool)`. -/
def isBoolVal : PyVal → Bool
  | .vbool _ => true
  | _ => false

/-- Python `str(value)` for the scalar kinds the walks meet (booleans
render as `True`/`False`, floats as their repr). -/
def pyStr : PyVal → Bytes
  | .vstr s => s.data
  | .vbool true => "True".data
  | .vbool false => "False".data
  | .vint n => pyIntStr n
  | .vfloat r => r.data
  | .vnone => "None".data
  | .vbytes b => b

/-- `to_bytes` (source lines 1319–1323): bytes pass through, everything
else is `str(value).encode('utf-8')`. -/
def to_bytes : PyVal → Bytes
  | .vbytes b => b
  | v => pyStr v

/-- The scalar-kind tag recorded in an encrypted token, tested in the
source's priority order (str, bool, int, float, else bytes). -/
def valtypeOf : PyVal → String
  | .vstr _ => "str"
  | .vbool _ => "bool"
  | .vint _ => "int"
  | .vfloat _ => "float"
  | _ => "bytes"

/-- Fold bytes into an optional running digest (`digest.update(b)` when a
digest object is present). -/
def updDigest (d : Option Bytes) (b : Bytes) : Option Bytes := d.map (· ++ b)

theorem stringMk_data (s : String) : String.mk s.data = s := by
  cases s; rfl

/-! ## Symbolic cryptographic primitives -/

/-- base64, modelled as an injective delimiter-free encoding: each byte's
code point in decimal followed by `/` (all characters are in the base64
alphabet, so — like real base64 — the output never contains `,`, `:`,
`]` or a newline). -/
def b64encode (b : Bytes) : Bytes :=
  b.foldr (fun c r => natDigits c.toNat ++ '/' :: r) []

/-- Inverse of `b64encode` (strict: anything not produced by the encoder
is rejected). -/
def b64decodeAux : List Char → List Char → Option Bytes
  | acc, [] => if acc.isEmpty then some [] else none
  | acc, c :: cs =>
    if c = '/' then
      if acc.isEmpty then none
      else (b64decodeAux [] cs).map (fun r => Char.ofNat (digitsVal acc.reverse) :: r)
    else if c.isDigit then b64decodeAux (c :: acc) cs
    else none

/-- Decode the base64 model encoding. -/
def b64decode? (b : Bytes) : Option Bytes := b64decodeAux [] b

/-- The symbolic AES-256-GCM authentication tag: an injective record of
(key, iv, aad, ciphertext), each length-prefixed. -/
def tagEnc (b : Bytes) : Bytes := natDigits b.length ++ '/' :: b

/-- Recompute the symbolic GCM tag. -/
def mkTag (key iv aad ct : Bytes) : Bytes :=
  tagEnc key ++ tagEnc iv ++ tagEnc aad ++ tagEnc ct

/-- Symbolic AES-256-GCM encryption: `encryptor.update(pt)+finalize()`
together with `encryptor.tag`; the ciphertext carries the plaintext and
the tag binds the key, IV, AAD and ciphertext. -/
def gcmEncrypt (key iv aad pt : Bytes) : Bytes × Bytes := (pt, mkTag key iv aad pt)

/-- Symbolic AES-256-GCM decryption: succeeds with the plaintext exactly
when the stored tag equals the recomputed tag (otherwise the library
raises `InvalidTag`). -/
def gcmDecrypt (key iv tag aad ct : Bytes) : Option Bytes :=
  if mkTag key iv aad ct = tag then some ct else none

/-- `hashlib.sha512(...).hexdigest().upper()` over an accumulated byte
stream, modelled as an injective rendering into the uppercase-hex
alphabet (digits, `A`, `F`): an ideal collision-free hash. -/
def sha512HexUpper (acc : Bytes) : Bytes :=
  'A' :: acc.foldr (fun c r => natDigits c.toNat ++ 'F' :: r) []

/-! ## The encrypted-value token grammar -/

/-- The literal head of every encrypted token. -/
def tokStart : List Char := "ENC[AES256_GCM,data:".data

/-- Render one encrypted token:
`ENC[AES256_GCM,data:D,iv:I,tag:T,type:Y]` (source lines 982–987). -/
def formatToken (encValue iv tag : Bytes) (valtype : String) : List Char :=
  tokStart ++ b64encode encValue ++ ",iv:".data ++ b64encode iv ++
    ",tag:".data ++ b64encode tag ++ ",type:".data ++ valtype.data ++ "]".data

/-- Split `cs` at the first occurrence of `delim`, returning the parts
before and after it. -/
def splitFirstOn (delim : List Char) : List Char → Option (List Char × List Char)
  | [] => if delim.isEmpty then some ([], []) else none
  | c :: cs =>
    if delim.isPrefixOf (c :: cs) then some ([], (c :: cs).drop delim.length)
    else (splitFirstOn delim cs).map (fun p => (c :: p.1, p.2))

/-- Split `cs` at the last occurrence of `delim` (a single character),
returning the part before it. -/
def beforeLast (delim : Char) : List Char → Option (List Char)
  | [] => none
  | c :: cs =>
    match beforeLast delim cs with
    | some r => some (c :: r)
    | none => if c = delim then some [] else none

/-- The match of the source's token regex
`^ENC\[AES256_GCM,data:(.+),iv:(.+),tag:(.+)(,type:(.+))?\]` (the `type`
group is present exactly when the stored format version is newer than
`0.8`; without it the value type defaults to `str`).  Matching is
modelled by first-occurrence splitting on the field delimiters, which
agrees with the greedy regex on every string whose base64 fields are
drawn from the base64 alphabet (no `,`, `:` or `]`), and in particular
fails — like the regex — on any string not starting with
`ENC[AES256_GCM,data:`. -/
def parseEncValue (withType : Bool) (s : List Char) :
    Option (List Char × List Char × List Char × List Char) :=
  if tokStart.isPrefixOf s then
    match splitFirstOn ",iv:".data (s.drop tokStart.length) with
    | none => none
    | some (dataG, r1) =>
      if dataG.isEmpty then none else
      match splitFirstOn ",tag:".data r1 with
      | none => none
      | some (ivG, r2) =>
        if ivG.isEmpty then none else
        if withType then
          match splitFirstOn ",type:".data r2 with
          | none => none
          | some (tagG, r3) =>
            if tagG.isEmpty then none else
            match beforeLast ']' r3 with
            | none => none
            | some tyG => if tyG.isEmpty then none else some (dataG, ivG, tagG, tyG)
        else
          match beforeLast ']' r2 with
          | none => none
          | some tagG => if tagG.isEmpty then none else some (dataG, ivG, tagG, "str".data)
  else none

/-! ## Per-leaf `encrypt` and `decrypt` (source lines 809–872 and 937–987) -/

/-- One leaf's stash record (`{iv, aad, cleartext}`), as populated by a
previous decryption pass of an edit session. -/
structure StashLeaf where
  iv : Bytes
  aad : Bytes
  cleartext : Bytes
  deriving Repr

/-- `encrypt` (source lines 937–987).  `freshIV` stands for the
`os.urandom(32)` draw, supplied by the caller; it is used unless the
stash holds the same cleartext.  Returns the new leaf value together
with the updated digest.

Note the source's order of checks: the falsy check (`not value and not
isinstance(value, bool)`) runs **before** the `unencrypted` check, and
returns the empty string — not the original value. -/
def encrypt (value : PyVal) (key : Bytes) (aad : Bytes) (stash : Option StashLeaf)
    (digest : Option Bytes) (unencrypted : Bool) (freshIV : Bytes) :
    PyVal × Option Bytes :=
  if !pyTruthy value && !isBoolVal value then (.vstr "", digest)
  else if unencrypted then (value, updDigest digest (to_bytes value))
  else
    let valtype := valtypeOf value
    let bv := to_bytes value
    let digest1 := updDigest digest bv
    let iv := match stash with
      | some st => if st.cleartext = bv then st.iv else freshIV
      | none => freshIV
    let (encValue, tag) := gcmEncrypt key iv aad bv
    (.vstr (String.mk (formatToken encValue iv tag valtype)), digest1)

/-- ASCII lower-casing of a byte string (`bytes.lower()`). -/
def asciiLower (b : Bytes) : Bytes :=
  b.map (fun c => if 65 ≤ c.toNat ∧ c.toNat ≤ 90 then Char.ofNat (c.toNat + 32) else c)

/-- The trailing type dispatch of `decrypt` (source lines 848–872):
convert the recovered cleartext back to the scalar kind named by the
token's `type` field, in the source's test order. -/
def convertClear (tyG : List Char) (clear : Bytes) (digest1 : Option Bytes) :
    Except SopsError (PyVal × Option Bytes) :=
  if tyG = "bytes".data then .ok (.vbytes clear, digest1)
  else if tyG = "str".data then .ok (.vstr (String.mk clear), digest1)
  else if tyG = "int".data then
    match pyParseInt? clear with
    | some n => .ok (.vint n, digest1)
    | none => .error .pyExn
  else if tyG = "float".data then .ok (.vfloat (String.mk clear), digest1)
  else if tyG = "bool".data then
    .ok (.vbool (asciiLower clear = "true".data), digest1)
  else .error (.exit 23)

/-- Stage three of the token path of `decrypt`: AEAD-decrypt (an
authentication failure raises `InvalidTag`, modelled as `pyExn`), fold
the cleartext into the digest, convert. -/
def decryptTok3 (encValue iv tag tyG : List Char) (key aad : Bytes)
    (digest : Option Bytes) : Except SopsError (PyVal × Option Bytes) :=
  match gcmDecrypt key iv tag aad encValue with
  | none => .error .pyExn
  | some clear => convertClear tyG clear (updDigest digest clear)

/-- Stage two of the token path of `decrypt`: base64-decode the matched
groups (a malformed group raises, modelled as `pyExn`). -/
def decryptTok2 (dataG ivG tagG tyG : List Char) (key aad : Bytes)
    (digest : Option Bytes) : Except SopsError (PyVal × Option Bytes) :=
  match b64decode? dataG, b64decode? ivG, b64decode? tagG with
  | some encValue, some iv, some tag => decryptTok3 encValue iv tag tyG key aad digest
  | _, _, _ => .error .pyExn

/-- The string path of `decrypt`: try the token regex; a non-matching
value is returned unchanged and — per the source — contributes nothing
to the digest. -/
def decryptTok (s : String) (key aad : Bytes) (digest : Option Bytes)
    (new08 : Bool) : Except SopsError (PyVal × Option Bytes) :=
  match parseEncValue new08 s.data with
  | none => .ok (.vstr s, digest)
  | some (dataG, ivG, tagG, tyG) => decryptTok2 dataG ivG tagG tyG key aad digest

/-- `decrypt` (source lines 809–872), staged through
`decryptTok`/`decryptTok2`/`decryptTok3` (one helper per fallible step
of the source's straight-line body).  `new08` is
`A_is_newer_than_B(INPUT_VERSION, '0.8')`, constant during a pass.  A
non-string value in an encrypted position raises (`.encode` on a
non-string is an `AttributeError`).  The source's stash *recording*
(three dict stores consumed only by the edit workflow, with no effect on
the returned value or digest) is not modelled; every verified claim runs
the pass without a stash. -/
def decrypt (value : PyVal) (key : Bytes) (aad : Bytes)
    (digest : Option Bytes) (unencrypted : Bool) (new08 : Bool) :
    Except SopsError (PyVal × Option Bytes) :=
  if unencrypted then .ok (value, updDigest digest (to_bytes value))
  else
    match value with
    | .vstr s => decryptTok s key aad digest new08
    | _ => .error .pyExn

/-- `C3` evaluation at the failing inputs: a falsy non-boolean scalar
(integer `0`, float `0.0`) is not encrypted, but — contrary to the claim
and to the source's own comment ("return it as is") — it is **replaced by
the empty string**, losing the value and its type; only the empty string
itself survives unchanged.  The digest is also left untouched. -/
theorem C3_falsy_scalar_replaced_by_empty_string :
    encrypt (.vint 0) [] [] none (some []) false [] = (.vstr "", some []) ∧
      encrypt (.vfloat "0.0") [] [] none (some []) false [] = (.vstr "", some []) ∧
      encrypt (.vstr "") [] [] none (some []) false [] = (.vstr "", some []) ∧
      (PyVal.vstr "" ≠ .vint 0) ∧ (PyVal.vstr "" ≠ .vfloat "0.0") := by
  refine ⟨rfl, rfl, rfl, by decide, by decide⟩

/-! ## The recursive tree walks -/

/-- Python `k.endswith(suffix)`. -/
def strEndsWith (s suffix : String) : Bool := suffix.data.isSuffixOf s.data

/-- `branch[k]` lookup in an ordered mapping (first matching key). -/
def lookupB : Branch → String → Option Tree
  | [], _ => none
  | (k, v) :: rest, k0 => if k = k0 then some v else lookupB rest k0

/-- `branch[k] = v` on an ordered mapping: replace in place, preserving
insertion order, else append. -/
def setKeyB : Branch → String → Tree → Branch
  | [], k0, v0 => [(k0, v0)]
  | (k, v) :: rest, k0, v0 =>
    if k = k0 then (k0, v0) :: rest else (k, v) :: setKeyB rest k0 v0

/-- The recursive encryption walk (`walk_and_encrypt` /
`walk_list_and_encrypt`, source lines 875–934, without the root
finalization).  The running digest is threaded as `acc`; `ivs n` stands
for the `os.urandom(32)` stream, with `n` bumped at every scalar leaf
(`ivs` is universally quantified in every theorem, so the exact indexing
is immaterial).  The edit-session stash (absent in the encrypt, decrypt
and rotate invocations that the claims cover) is not threaded: every
leaf is encrypted with `stash=None`, i.e. a fresh IV. -/
def walkEncDoc : Unit := ()

mutual

def walkEncTree (key : Bytes) (suffix : String) (ivs : Nat → Bytes) :
    Tree → Bytes → Bool → Option Bytes → Nat → Tree × Option Bytes × Nat
  | .map m, aad, unenc, acc, n =>
    let r := walkEncEntries key suffix ivs false m aad unenc acc n
    (.map r.1, r.2.1, r.2.2)
  | .arr l, aad, unenc, acc, n =>
    let r := walkEncItems key suffix ivs l aad unenc acc n
    (.arr r.1, r.2.1, r.2.2)
  | .scalar v, aad, unenc, acc, n =>
    let r := encrypt v key aad none acc unenc (ivs n)
    (.scalar r.1, r.2, n + 1)

def walkEncEntries (key : Bytes) (suffix : String) (ivs : Nat → Bytes) (isRoot : Bool) :
    Branch → Bytes → Bool → Option Bytes → Nat → Branch × Option Bytes × Nat
  | [], _aad, _unenc, acc, n => ([], acc, n)
  | (k, v) :: rest, aad, unenc, acc, n =>
    if isRoot ∧ k = "sops" then
      let r := walkEncEntries key suffix ivs isRoot rest aad unenc acc n
      ((k, v) :: r.1, r.2.1, r.2.2)
    else
      let unencB := unenc || strEndsWith k suffix
      let caad := aad ++ k.data ++ [':']
      let rv := walkEncTree key suffix ivs v caad unencB acc n
      let rr := walkEncEntries key suffix ivs isRoot rest aad unenc rv.2.1 rv.2.2
      ((k, rv.1) :: rr.1, rr.2.1, rr.2.2)

def walkEncItems (key : Bytes) (suffix : String) (ivs : Nat → Bytes) :
    List Tree → Bytes → Bool → Option Bytes → Nat → List Tree × Option Bytes × Nat
  | [], _aad, _unenc, acc, n => ([], acc, n)
  | v :: rest, aad, unenc, acc, n =>
    let rv := walkEncTree key suffix ivs v aad unenc acc n
    let rr := walkEncItems key suffix ivs rest aad unenc rv.2.1 rv.2.2
    (rv.1 :: rr.1, rr.2.1, rr.2.2)

end

/-- `walk_and_encrypt` at the root (source lines 875–912): walk every
entry except `sops`, then set `sops.lastmodified` to the current
timestamp and store the AEAD-encrypted uppercase-hex digest as
`sops.mac` (AAD: the `lastmodified` string).  A missing or non-mapping
`sops` value raises (`KeyError`/`TypeError`). -/
def walk_and_encrypt (branch : Branch) (key : Bytes) (suffix : String)
    (ivs : Nat → Bytes) (now : String) : Except SopsError Branch :=
  let r := walkEncEntries key suffix ivs true branch [] false (some []) 0
  match lookupB r.1 "sops" with
  | some (.map m) =>
    let m1 := setKeyB m "lastmodified" (.scalar (.vstr now))
    let h := sha512HexUpper ((r.2.1).getD [])
    let mac := (encrypt (.vstr (String.mk h)) key now.data none none false (ivs r.2.2)).1
    let m2 := setKeyB m1 "mac" (.scalar mac)
    .ok (setKeyB r.1 "sops" (.map m2))
  | _ => .error .pyExn

/-- The recursive decryption walk (`walk_and_decrypt` /
`walk_list_and_decrypt`, source lines 732–806, without the root MAC
verification).  `new09`/`new08` are `A_is_newer_than_B(INPUT_VERSION,
'0.9'/'0.8')`, constant during a pass; `carry` is the legacy (≤ 0.9)
AAD accumulator that persists across sibling entries.  Stash recording
is omitted as in `decrypt`. -/
def walkDecDoc : Unit := ()

mutual

def walkDecTree (key : Bytes) (suffix : String) (new09 new08 : Bool) :
    Tree → Bytes → Bool → Option Bytes → Except SopsError (Tree × Option Bytes)
  | .map m, aad, unenc, dig =>
    match walkDecEntries key suffix new09 new08 false m aad aad unenc dig with
    | .ok r => .ok (.map r.1, r.2)
    | .error e => .error e
  | .arr l, aad, unenc, dig =>
    match walkDecItems key suffix new09 new08 l aad unenc dig with
    | .ok r => .ok (.arr r.1, r.2)
    | .error e => .error e
  | .scalar v, aad, unenc, dig =>
    match decrypt v key aad dig unenc new08 with
    | .ok r => .ok (.scalar r.1, r.2)
    | .error e => .error e

def walkDecEntries (key : Bytes) (suffix : String) (new09 new08 : Bool) (isRoot : Bool) :
    Branch → Bytes → Bytes → Bool → Option Bytes → Except SopsError (Branch × Option Bytes)
  | [], _aad, _carry, _unenc, dig => .ok ([], dig)
  | (k, v) :: rest, aad, carry, unenc, dig =>
    if isRoot ∧ k = "sops" then
      match walkDecEntries key suffix new09 new08 isRoot rest aad carry unenc dig with
      | .ok r => .ok ((k, v) :: r.1, r.2)
      | .error e => .error e
    else
      let unencB := unenc || strEndsWith k suffix
      let caad := if new09 then aad ++ k.data ++ [':'] else carry ++ k.data
      let carry1 := if new09 then carry else caad
      match walkDecTree key suffix new09 new08 v caad unencB dig with
      | .error e => .error e
      | .ok rv =>
        match walkDecEntries key suffix new09 new08 isRoot rest aad carry1 unenc rv.2 with
        | .ok rr => .ok ((k, rv.1) :: rr.1, rr.2)
        | .error e => .error e

def walkDecItems (key : Bytes) (suffix : String) (new09 new08 : Bool) :
    List Tree → Bytes → Bool → Option Bytes → Except SopsError (List Tree × Option Bytes)
  | [], _aad, _unenc, dig => .ok ([], dig)
  | v :: rest, aad, unenc, dig =>
    match walkDecTree key suffix new09 new08 v aad unenc dig with
    | .error e => .error e
    | .ok rv =>
      match walkDecItems key suffix new09 new08 rest aad unenc rv.2 with
      | .ok rr => .ok (rv.1 :: rr.1, rr.2)
      | .error e => .error e

end

/-- `walk_and_decrypt` at the root (source lines 732–783): walk every
entry except `sops`; then — unless `--ignore-mac` — a missing
`sops.mac` is `panic(..., 52)`, and a recomputed digest that differs
from the AEAD-decryption of `sops.mac` (AAD: the stored `lastmodified`
string) is `panic(..., 51)`. -/
def walk_and_decrypt (branch : Branch) (key : Bytes) (suffix : String)
    (inputVersion : String) (ignoreMac : Bool) : Except SopsError Branch :=
  let new09 := A_is_newer_than_B inputVersion "0.9"
  let new08 := A_is_newer_than_B inputVersion "0.8"
  let dig0 : Option Bytes := if ignoreMac then none else some []
  match walkDecEntries key suffix new09 new08 true branch [] [] false dig0 with
  | .error e => .error e
  | .ok (b1, dig) =>
    if ignoreMac then .ok b1
    else
      match lookupB b1 "sops" with
      | some (.map m) =>
        match lookupB m "mac" with
        | none => .error (.exit 52)
        | some macT =>
          let h := sha512HexUpper (dig.getD [])
          match lookupB m "lastmodified" with
          | some (.scalar (.vstr lm)) =>
            match macT with
            | .scalar mv =>
              match decrypt mv key lm.data none false new08 with
              | .error e => .error e
              | .ok (origh, _) =>
                if origh = .vstr (String.mk h) then .ok b1 else .error (.exit 51)
            | _ => .error .pyExn
          | _ => .error .pyExn
      | _ => .error .pyExn

/-! ## Round-trip properties of the token grammar -/

theorem data_stringMk (l : List Char) : (String.mk l).data = l := rfl

theorem b64encode_cons (x : Char) (xs : Bytes) :
    b64encode (x :: xs) = natDigits x.toNat ++ '/' :: b64encode xs := rfl

theorem b64encode_chars (b : Bytes) : ∀ c ∈ b64encode b, c ∈ decDigits ∨ c = '/' := by
  induction b with
  | nil => intro c hc; simp [b64encode] at hc
  | cons x xs ih =>
    intro c hc
    rw [b64encode_cons, List.mem_append, List.mem_cons] at hc
    rcases hc with hc | hc | hc
    · exact Or.inl (natDigits_mem _ c hc)
    · exact Or.inr hc
    · exact ih c hc

theorem b64encode_no_comma (b : Bytes) : ',' ∉ b64encode b := by
  intro hc
  rcases b64encode_chars b ',' hc with h | h
  · revert h; decide
  · exact absurd h (by decide)

theorem b64encode_ne_nil {b : Bytes} (h : b ≠ []) : b64encode b ≠ [] := by
  cases b with
  | nil => exact absurd rfl h
  | cons x xs =>
    rw [b64encode_cons]
    rcases hd : natDigits x.toNat with _ | _
    · exact absurd hd (natDigits_ne_nil _)
    · simp

theorem mkTag_ne_nil (key iv aad ct : Bytes) : mkTag key iv aad ct ≠ [] := by
  unfold mkTag tagEnc
  rcases hd : natDigits key.length with _ | _
  · exact absurd hd (natDigits_ne_nil _)
  · simp

theorem splitFirstOn_append (d : Char) (dl a b : List Char)
    (hdl : dl.head? = some d) (ha : d ∉ a) :
    splitFirstOn dl (a ++ (dl ++ b)) = some (a, b) := by
  induction a with
  | nil =>
    cases dl with
    | nil => simp at hdl
    | cons x xs =>
      have hred : splitFirstOn (x :: xs) ([] ++ ((x :: xs) ++ b)) =
          if (x :: xs).isPrefixOf (x :: (xs ++ b)) then
            some (([] : List Char), (x :: (xs ++ b)).drop (x :: xs).length)
          else (splitFirstOn (x :: xs) (xs ++ b)).map (fun p => (x :: p.1, p.2)) := rfl
      have hcond : (x :: xs).isPrefixOf (x :: (xs ++ b)) = true := by
        rw [← List.cons_append]
        exact List.isPrefixOf_iff_prefix.mpr (List.prefix_append (x :: xs) b)
      rw [hred, if_pos hcond]
      simp [List.length_cons, List.drop_succ_cons, List.drop_left]
  | cons y ys ih =>
    cases dl with
    | nil => simp at hdl
    | cons x xs =>
      have hx : x = d := by simpa using hdl
      subst hx
      have hy : ¬ x = y := fun he => ha (he ▸ List.mem_cons_self y ys)
      have hred : splitFirstOn (x :: xs) ((y :: ys) ++ ((x :: xs) ++ b)) =
          if (x :: xs).isPrefixOf (y :: (ys ++ ((x :: xs) ++ b))) then
            some (([] : List Char), (y :: (ys ++ ((x :: xs) ++ b))).drop (x :: xs).length)
          else (splitFirstOn (x :: xs) (ys ++ ((x :: xs) ++ b))).map
            (fun p => (y :: p.1, p.2)) := rfl
      rw [hred, if_neg, ih (fun hm => ha (List.mem_cons_of_mem y hm))]
      · rfl
      · simp [List.isPrefixOf, hy]

theorem beforeLast_append_close (delim : Char) (ty : List Char) (h : delim ∉ ty) :
    beforeLast delim (ty ++ [delim]) = some ty := by
  induction ty with
  | nil => simp [beforeLast]
  | cons c cs ih =>
    have hc : delim ∉ cs := fun hm => h (List.mem_cons_of_mem c hm)
    have hred : beforeLast delim ((c :: cs) ++ [delim]) =
        match beforeLast delim (cs ++ [delim]) with
        | some r => some (c :: r)
        | none => if c = delim then some [] else none := rfl
    rw [hred, ih hc]

theorem parseEncValue_formatToken (encV iv tag : Bytes) (ty : String)
    (hEnc : encV ≠ []) (hIv : iv ≠ []) (hTag : tag ≠ [])
    (hty1 : ty.data ≠ []) (hty2 : ']' ∉ ty.data) :
    parseEncValue true (formatToken encV iv tag ty) =
      some (b64encode encV, b64encode iv, b64encode tag, ty.data) := by
  have hpre : tokStart.isPrefixOf (formatToken encV iv tag ty) = true := by
    unfold formatToken
    simp only [List.append_assoc]
    exact List.isPrefixOf_iff_prefix.mpr (List.prefix_append _ _)
  have hdropEq : (formatToken encV iv tag ty).drop tokStart.length =
      b64encode encV ++ (",iv:".data ++ (b64encode iv ++ (",tag:".data ++
        (b64encode tag ++ (",type:".data ++ (ty.data ++ "]".data)))))) := by
    unfold formatToken
    simp only [List.append_assoc]
    exact List.drop_left _ _
  have h1 := splitFirstOn_append ',' ",iv:".data (b64encode encV)
    (b64encode iv ++ (",tag:".data ++ (b64encode tag ++ (",type:".data ++
      (ty.data ++ "]".data))))) rfl (b64encode_no_comma encV)
  have h2 := splitFirstOn_append ',' ",tag:".data (b64encode iv)
    (b64encode tag ++ (",type:".data ++ (ty.data ++ "]".data))) rfl (b64encode_no_comma iv)
  have h3 := splitFirstOn_append ',' ",type:".data (b64encode tag)
    (ty.data ++ "]".data) rfl (b64encode_no_comma tag)
  have h4 : beforeLast ']' (ty.data ++ "]".data) = some ty.data :=
    beforeLast_append_close ']' ty.data hty2
  have e1 : (b64encode encV).isEmpty = false := by
    rcases hx : b64encode encV with _ | _
    · exact absurd hx (b64encode_ne_nil hEnc)
    · rfl
  have e2 : (b64encode iv).isEmpty = false := by
    rcases hx : b64encode iv with _ | _
    · exact absurd hx (b64encode_ne_nil hIv)
    · rfl
  have e3 : (b64encode tag).isEmpty = false := by
    rcases hx : b64encode tag with _ | _
    · exact absurd hx (b64encode_ne_nil hTag)
    · rfl
  have e4 : ty.data.isEmpty = false := by
    rcases hx : ty.data with _ | _
    · exact absurd hx hty1
    · rfl
  unfold parseEncValue
  rw [if_pos hpre, hdropEq, h1]
  simp only [e1, h2, e2, h3, e3, h4, e4, Bool.false_eq_true, if_false, if_true]

theorem b64decodeAux_digits (ds : List Char) (hds : ∀ x ∈ ds, x ∈ decDigits) :
    ∀ acc rest, b64decodeAux acc (ds ++ rest) = b64decodeAux (ds.reverse ++ acc) rest := by
  induction ds with
  | nil => intro acc rest; simp
  | cons c cs ih =>
    intro acc rest
    have hc : c ∈ decDigits := hds c (List.mem_cons_self c cs)
    have h1 : ¬ c = '/' := by fin_cases hc <;> decide
    have h2 : c.isDigit = true := mem_decDigits_isDigit hc
    simp only [List.cons_append, b64decodeAux, if_neg h1, if_pos h2, List.append_eq]
    rw [ih (fun x hx => hds x (List.mem_cons_of_mem c hx)) (c :: acc) rest]
    simp [List.append_assoc]

theorem b64decode?_b64encode (b : Bytes) : b64decode? (b64encode b) = some b := by
  induction b with
  | nil => rfl
  | cons x xs ih =>
    unfold b64decode?
    rw [b64encode_cons, show natDigits x.toNat ++ '/' :: b64encode xs =
      natDigits x.toNat ++ ('/' :: b64encode xs) from rfl,
      b64decodeAux_digits (natDigits x.toNat) (natDigits_mem _)]
    have hne : ¬ ((natDigits x.toNat).reverse ++ []).isEmpty = true := by
      simp [natDigits_ne_nil]
    simp only [b64decodeAux, if_pos rfl, if_neg hne]
    rw [show b64decodeAux [] (b64encode xs) = b64decode? (b64encode xs) from rfl, ih]
    simp [List.reverse_reverse, digitsVal_natDigits, Char.ofNat_toNat]

/-! ## Leaf-level round trip -/

/-- Scalars for which encrypt-then-decrypt is the identity: everything
except the falsy non-booleans (`0`, `0.0`, empty bytes, `None`), which
the source's falsy check replaces by `""` (see `C3`); the empty string
survives because `""` is returned unchanged by `encrypt` and passes
through `decrypt` unmodified.  A float must carry a genuine (nonempty)
repr. -/
def roundVal : PyVal → Bool
  | .vstr _ => true
  | .vbool _ => true
  | .vint n => decide (n ≠ 0)
  | .vfloat r => decide (r ≠ "" ∧ r ≠ "0.0" ∧ r ≠ "-0.0")
  | .vbytes b => !b.isEmpty
  | .vnone => false

/-- The digest contribution of one scalar leaf, identical in the two walk
directions: nothing for the falsy non-booleans (and for `""`), otherwise
the leaf's bytes. -/
def leafDelta (v : PyVal) : Bytes :=
  if !pyTruthy v && !isBoolVal v then [] else to_bytes v

theorem encrypt_digest (v : PyVal) (key aad : Bytes) (dig : Option Bytes)
    (unenc : Bool) (iv : Bytes) :
    (encrypt v key aad none dig unenc iv).2 = updDigest dig (leafDelta v) := by
  unfold encrypt leafDelta
  split
  · cases dig <;> simp [updDigest]
  · split <;> rfl

theorem encrypt_unenc_value (v : PyVal) (key aad : Bytes) (dig : Option Bytes)
    (iv : Bytes) (hf : (!pyTruthy v && !isBoolVal v) = false) :
    (encrypt v key aad none dig true iv).1 = v := by
  unfold encrypt
  rw [if_neg (by simp [hf])]
  rfl

theorem encrypt_token (v : PyVal) (key aad : Bytes) (dig : Option Bytes)
    (iv : Bytes) (hf : (!pyTruthy v && !isBoolVal v) = false) :
    (encrypt v key aad none dig false iv).1 =
      .vstr (String.mk (formatToken (to_bytes v) iv
        (mkTag key iv aad (to_bytes v)) (valtypeOf v))) := by
  unfold encrypt
  rw [if_neg (by simp [hf])]
  rfl

theorem decrypt_of_token (bv key aad : Bytes) (dig : Option Bytes) (iv : Bytes)
    (ty : String) (hEnc : bv ≠ []) (hIv : iv ≠ [])
    (hty1 : ty.data ≠ []) (hty2 : ']' ∉ ty.data) :
    decrypt (.vstr (String.mk (formatToken bv iv (mkTag key iv aad bv) ty)))
        key aad dig false true =
      convertClear ty.data bv (updDigest dig bv) := by
  show decryptTok (String.mk (formatToken bv iv (mkTag key iv aad bv) ty))
    key aad dig true = _
  unfold decryptTok
  rw [data_stringMk, parseEncValue_formatToken bv iv (mkTag key iv aad bv) ty hEnc hIv
    (mkTag_ne_nil key iv aad bv) hty1 hty2]
  show decryptTok2 (b64encode bv) (b64encode iv)
    (b64encode (mkTag key iv aad bv)) ty.data key aad dig = _
  unfold decryptTok2
  rw [b64decode?_b64encode bv, b64decode?_b64encode iv,
    b64decode?_b64encode (mkTag key iv aad bv)]
  show decryptTok3 bv iv (mkTag key iv aad bv) ty.data key aad dig = _
  unfold decryptTok3
  rw [show gcmDecrypt key iv (mkTag key iv aad bv) aad bv = some bv from by
    simp [gcmDecrypt]]

/-- Bytes of a non-falsy scalar are nonempty. -/
theorem to_bytes_ne_nil {v : PyVal} (hv : roundVal v = true)
    (hf : (!pyTruthy v && !isBoolVal v) = false) : to_bytes v ≠ [] := by
  cases v with
  | vstr s =>
    simp only [pyTruthy, isBoolVal, Bool.not_false, Bool.and_true] at hf
    simp only [to_bytes, pyStr]
    intro he
    rw [he] at hf
    simp at hf
  | vbool b => cases b <;> simp [to_bytes, pyStr]
  | vint n =>
    simp only [to_bytes, pyStr, pyIntStr]
    split
    · simp
    · exact natDigits_ne_nil _
  | vfloat r =>
    simp only [roundVal, decide_eq_true_eq] at hv
    simp only [to_bytes, pyStr]
    intro he
    exact hv.1 (by cases r with | mk d => simp at he; rw [he])
  | vbytes b =>
    simp only [roundVal] at hv
    simpa [to_bytes] using hv
  | vnone => simp [roundVal] at hv

/-- One leaf round-trips under encryption followed by decryption (current
format version), in both the encrypted and the unencrypted position, with
the digest advancing by `leafDelta` on the decryption side. -/
theorem decrypt_encrypt_leaf (v : PyVal) (key aad : Bytes) (dig0 dig : Option Bytes)
    (iv : Bytes) (hiv : iv ≠ []) (unenc : Bool) (hv : roundVal v = true) :
    decrypt (encrypt v key aad none dig0 unenc iv).1 key aad dig unenc true =
      .ok (v, updDigest dig (leafDelta v)) := by
  by_cases hf : (!pyTruthy v && !isBoolVal v) = true
  · have hvs : v = .vstr "" := by
      cases v with
      | vstr s =>
        simp only [pyTruthy, isBoolVal, Bool.not_false, Bool.and_true, Bool.not_not] at hf
        congr 1
        cases s with
        | mk d =>
          cases d with
          | nil => rfl
          | cons c cs => simp at hf
      | vbool b => simp [isBoolVal] at hf
      | vint n => simp [roundVal] at hv; simp [pyTruthy, hv, isBoolVal] at hf
      | vfloat r => simp [roundVal] at hv; simp [pyTruthy, hv.1, hv.2.1, hv.2.2, isBoolVal] at hf
      | vbytes b => simp [roundVal] at hv; simp [pyTruthy, hv, isBoolVal] at hf
      | vnone => simp [roundVal] at hv
    subst hvs
    have henc : (encrypt (.vstr "") key aad none dig0 unenc iv).1 = .vstr "" := by
      unfold encrypt
      rw [if_pos hf]
    rw [henc]
    have hld : leafDelta (.vstr "") = [] := rfl
    rw [hld]
    cases unenc with
    | true =>
      unfold decrypt
      rw [if_pos rfl]
      cases dig <;> rfl
    | false =>
      unfold decrypt
      rw [if_neg (by simp)]
      show decryptTok "" key aad dig true = .ok (.vstr "", updDigest dig [])
      have hred : decryptTok "" key aad dig true = .ok (.vstr "", dig) := rfl
      rw [hred]
      cases dig <;> simp [updDigest]
  · have hf0 : (!pyTruthy v && !isBoolVal v) = false := by
      cases hx : (!pyTruthy v && !isBoolVal v) <;> simp_all
    have hld : leafDelta v = to_bytes v := by unfold leafDelta; rw [if_neg (by simp [hf0])]
    rw [hld]
    cases unenc with
    | true =>
      rw [encrypt_unenc_value v key aad dig0 iv hf0]
      unfold decrypt
      rw [if_pos rfl]
    | false =>
      rw [encrypt_token v key aad dig0 iv hf0]
      have hbv := to_bytes_ne_nil hv hf0
      cases v with
      | vstr s =>
        rw [show valtypeOf (.vstr s) = "str" from rfl,
          decrypt_of_token (to_bytes (.vstr s)) key aad dig iv "str" hbv hiv
            (by decide) (by decide)]
        unfold convertClear
        rw [if_neg (by decide), if_pos (by decide)]
        simp only [show to_bytes (.vstr s) = s.data from rfl, stringMk_data]
      | vbool b =>
        rw [show valtypeOf (.vbool b) = "bool" from rfl,
          decrypt_of_token (to_bytes (.vbool b)) key aad dig iv "bool" hbv hiv
            (by decide) (by decide)]
        unfold convertClear
        rw [if_neg (by decide), if_neg (by decide), if_neg (by decide),
          if_neg (by decide), if_pos (by decide)]
        cases b <;> rfl
      | vint n =>
        rw [show valtypeOf (.vint n) = "int" from rfl,
          decrypt_of_token (to_bytes (.vint n)) key aad dig iv "int" hbv hiv
            (by decide) (by decide)]
        unfold convertClear
        rw [if_neg (by decide), if_neg (by decide), if_pos (by decide)]
        rw [show to_bytes (.vint n) = pyIntStr n from rfl, pyParseInt?_pyIntStr]
      | vfloat r =>
        rw [show valtypeOf (.vfloat r) = "float" from rfl,
          decrypt_of_token (to_bytes (.vfloat r)) key aad dig iv "float" hbv hiv
            (by decide) (by decide)]
        unfold convertClear
        rw [if_neg (by decide), if_neg (by decide), if_neg (by decide), if_pos (by decide)]
        simp only [show to_bytes (.vfloat r) = r.data from rfl, stringMk_data]
      | vbytes b =>
        rw [show valtypeOf (.vbytes b) = "bytes" from rfl,
          decrypt_of_token (to_bytes (.vbytes b)) key aad dig iv "bytes" hbv hiv
            (by decide) (by decide)]
        unfold convertClear
        rw [if_pos (by decide)]
        rfl
      | vnone => simp [roundVal] at hv

/-! ## Tree-level digest deltas and leaf predicates -/

mutual

/-- Every scalar leaf of the tree satisfies `roundVal`. -/
def treeRound : Tree → Bool
  | .scalar v => roundVal v
  | .map m => branchRound m
  | .arr l => itemsRound l

def branchRound : Branch → Bool
  | [] => true
  | (_, t) :: rest => treeRound t && branchRound rest

def itemsRound : List Tree → Bool
  | [] => true
  | t :: rest => treeRound t && itemsRound rest

end

mutual

/-- The bytes a subtree contributes to the running digest, in walk
order (the concatenated `to_bytes` of its non-falsy leaves). -/
def treeDelta : Tree → Bytes
  | .scalar v => leafDelta v
  | .map m => branchDelta m
  | .arr l => itemsDelta l

def branchDelta : Branch → Bytes
  | [] => []
  | (_, t) :: rest => treeDelta t ++ branchDelta rest

def itemsDelta : List Tree → Bytes
  | [] => []
  | t :: rest => treeDelta t ++ itemsDelta rest

end

mutual

/-- Number of scalar leaves (IV draws) in a subtree. -/
def numScalars : Tree → Nat
  | .scalar _ => 1
  | .map m => branchNumScalars m
  | .arr l => itemsNumScalars l

def branchNumScalars : Branch → Nat
  | [] => 0
  | (_, t) :: rest => numScalars t + branchNumScalars rest

def itemsNumScalars : List Tree → Nat
  | [] => 0
  | t :: rest => numScalars t + itemsNumScalars rest

end

/-! ## The encryption walk: digest accumulation -/

mutual

theorem walkEncTree_digest (key : Bytes) (suffix : String) (ivs : Nat → Bytes)
    (t : Tree) : ∀ (aad : Bytes) (unenc : Bool) (acc : Bytes) (n : Nat),
    (walkEncTree key suffix ivs t aad unenc (some acc) n).2.1 =
      some (acc ++ treeDelta t) := by
  cases t with
  | scalar v =>
    intro aad unenc acc n
    show (encrypt v key aad none (some acc) unenc (ivs n)).2 = _
    rw [encrypt_digest]
    rfl
  | map m =>
    intro aad unenc acc n
    show (walkEncEntries key suffix ivs false m aad unenc (some acc) n).2.1 = _
    rw [walkEncEntries_digest key suffix ivs m aad unenc acc n]
    rfl
  | arr l =>
    intro aad unenc acc n
    show (walkEncItems key suffix ivs l aad unenc (some acc) n).2.1 = _
    rw [walkEncItems_digest key suffix ivs l aad unenc acc n]
    rfl

theorem walkEncEntries_digest (key : Bytes) (suffix : String) (ivs : Nat → Bytes)
    (b : Branch) : ∀ (aad : Bytes) (unenc : Bool) (acc : Bytes) (n : Nat),
    (walkEncEntries key suffix ivs false b aad unenc (some acc) n).2.1 =
      some (acc ++ branchDelta b) := by
  cases b with
  | nil => intro aad unenc acc n; simp [walkEncEntries, branchDelta]
  | cons e rest =>
    intro aad unenc acc n
    rcases e with ⟨k, v⟩
    show (walkEncEntries key suffix ivs false ((k, v) :: rest) aad unenc (some acc) n).2.1 = _
    rw [walkEncEntries]
    rw [if_neg (by simp)]
    simp only []
    rw [walkEncTree_digest key suffix ivs v]
    rw [walkEncEntries_digest key suffix ivs rest]
    simp [branchDelta, List.append_assoc]

theorem walkEncItems_digest (key : Bytes) (suffix : String) (ivs : Nat → Bytes)
    (l : List Tree) : ∀ (aad : Bytes) (unenc : Bool) (acc : Bytes) (n : Nat),
    (walkEncItems key suffix ivs l aad unenc (some acc) n).2.1 =
      some (acc ++ itemsDelta l) := by
  cases l with
  | nil => intro aad unenc acc n; simp [walkEncItems, itemsDelta]
  | cons v rest =>
    intro aad unenc acc n
    rw [walkEncItems]
    simp only []
    rw [walkEncTree_digest key suffix ivs v]
    rw [walkEncItems_digest key suffix ivs rest]
    simp [itemsDelta, List.append_assoc]

end

/-! ## The encryption walk under the unencrypted flag (claim C5) -/

theorem encrypt_unenc_value_round (v : PyVal) (key aad : Bytes) (dig : Option Bytes)
    (iv : Bytes) (hv : roundVal v = true) :
    (encrypt v key aad none dig true iv).1 = v := by
  by_cases hf : (!pyTruthy v && !isBoolVal v) = true
  · have hvs : v = .vstr "" := by
      cases v with
      | vstr s =>
        simp only [pyTruthy, isBoolVal, Bool.not_false, Bool.and_true, Bool.not_not] at hf
        congr 1
        cases s with
        | mk d =>
          cases d with
          | nil => rfl
          | cons c cs => simp at hf
      | vbool b => simp [isBoolVal] at hf
      | vint n => simp [roundVal] at hv; simp [pyTruthy, hv, isBoolVal] at hf
      | vfloat r => simp [roundVal] at hv; simp [pyTruthy, hv.1, hv.2.1, hv.2.2, isBoolVal] at hf
      | vbytes b => simp [roundVal] at hv; simp [pyTruthy, hv, isBoolVal] at hf
      | vnone => simp [roundVal] at hv
    subst hvs
    unfold encrypt
    rw [if_pos hf]
  · exact encrypt_unenc_value v key aad dig iv (by cases hx : (!pyTruthy v && !isBoolVal v) <;> simp_all)

mutual

theorem walkEncTree_unenc (key : Bytes) (suffix : String) (ivs : Nat → Bytes)
    (t : Tree) : ∀ (aad : Bytes) (acc : Bytes) (n : Nat), treeRound t = true →
    walkEncTree key suffix ivs t aad true (some acc) n =
      (t, some (acc ++ treeDelta t), n + numScalars t) := by
  cases t with
  | scalar v =>
    intro aad acc n hv
    show (Tree.scalar (encrypt v key aad none (some acc) true (ivs n)).1,
      (encrypt v key aad none (some acc) true (ivs n)).2, n + 1) = _
    rw [encrypt_digest, encrypt_unenc_value_round v key aad (some acc) (ivs n)
      (by simpa [treeRound] using hv)]
    rfl
  | map m =>
    intro aad acc n hv
    show (Tree.map (walkEncEntries key suffix ivs false m aad true (some acc) n).1,
      (walkEncEntries key suffix ivs false m aad true (some acc) n).2.1,
      (walkEncEntries key suffix ivs false m aad true (some acc) n).2.2) = _
    rw [walkEncEntries_unenc key suffix ivs m aad acc n (by simpa [treeRound] using hv)]
    rfl
  | arr l =>
    intro aad acc n hv
    show (Tree.arr (walkEncItems key suffix ivs l aad true (some acc) n).1,
      (walkEncItems key suffix ivs l aad true (some acc) n).2.1,
      (walkEncItems key suffix ivs l aad true (some acc) n).2.2) = _
    rw [walkEncItems_unenc key suffix ivs l aad acc n (by simpa [treeRound] using hv)]
    rfl

theorem walkEncEntries_unenc (key : Bytes) (suffix : String) (ivs : Nat → Bytes)
    (b : Branch) : ∀ (aad : Bytes) (acc : Bytes) (n : Nat), branchRound b = true →
    walkEncEntries key suffix ivs false b aad true (some acc) n =
      (b, some (acc ++ branchDelta b), n + branchNumScalars b) := by
  cases b with
  | nil => intro aad acc n _; simp [walkEncEntries, branchDelta, branchNumScalars]
  | cons e rest =>
    intro aad acc n hv
    rcases e with ⟨k, v⟩
    rw [branchRound] at hv
    simp only [Bool.and_eq_true] at hv
    rw [walkEncEntries, if_neg (by simp)]
    simp only [Bool.true_or]
    rw [walkEncTree_unenc key suffix ivs v _ acc n hv.1]
    simp only []
    rw [walkEncEntries_unenc key suffix ivs rest aad _ _ hv.2]
    simp [branchDelta, branchNumScalars, List.append_assoc, Nat.add_assoc]

theorem walkEncItems_unenc (key : Bytes) (suffix : String) (ivs : Nat → Bytes)
    (l : List Tree) : ∀ (aad : Bytes) (acc : Bytes) (n : Nat), itemsRound l = true →
    walkEncItems key suffix ivs l aad true (some acc) n =
      (l, some (acc ++ itemsDelta l), n + itemsNumScalars l) := by
  cases l with
  | nil => intro aad acc n _; simp [walkEncItems, itemsDelta, itemsNumScalars]
  | cons v rest =>
    intro aad acc n hv
    rw [itemsRound] at hv
    simp only [Bool.and_eq_true] at hv
    rw [walkEncItems]
    rw [walkEncTree_unenc key suffix ivs v aad acc n hv.1]
    simp only []
    rw [walkEncItems_unenc key suffix ivs rest aad _ _ hv.2]
    simp [itemsDelta, itemsNumScalars, List.append_assoc, Nat.add_assoc]

end

theorem walkEncEntries_suffixed (key : Bytes) (suffix : String) (ivs : Nat → Bytes)
    (b : Branch) : ∀ (aad acc : Bytes) (n : Nat) (unenc : Bool),
    branchRound b = true →
    (∀ p ∈ b, strEndsWith p.1 suffix = true) →
    walkEncEntries key suffix ivs false b aad unenc (some acc) n =
      (b, some (acc ++ branchDelta b), n + branchNumScalars b) := by
  induction b with
  | nil => intro aad acc n unenc _ _; simp [walkEncEntries, branchDelta, branchNumScalars]
  | cons e rest ih =>
    intro aad acc n unenc hv hk
    rcases e with ⟨k, v⟩
    rw [branchRound] at hv
    simp only [Bool.and_eq_true] at hv
    rw [walkEncEntries, if_neg (by simp)]
    simp only [hk (k, v) (List.mem_cons_self _ _), Bool.or_true]
    rw [walkEncTree_unenc key suffix ivs v _ acc n hv.1]
    simp only []
    rw [ih _ _ _ unenc hv.2 (fun p hp => hk p (List.mem_cons_of_mem _ hp))]
    simp [branchDelta, branchNumScalars, List.append_assoc, Nat.add_assoc]

/-- `C5` (amended): in the encryption walk, (a) every subtree below a key
carrying the unencrypted-suffix flag is left entirely unchanged with the
raw bytes of its leaves folded into the running digest, and (b) the flag
is set for every entry whose key ends with the configured suffix, so such
entries pass through byte-for-byte with their bytes digested; (c) a
sibling *truthy* scalar in a non-suffixed position becomes an
`ENC[AES256_GCM,data:` token.  The amendment restricts (a)/(b) to leaves
that are not falsy non-booleans: the source's falsy check runs **before**
the unencrypted check, so a falsy leaf under a suffixed key is replaced
by `""` and contributes nothing to the digest
(see `C5_counterexample_falsy_under_suffix`). -/
theorem C5_unencrypted_suffix_sticky
    (key : Bytes) (suffix : String) (ivs : Nat → Bytes) (t : Tree) (b : Branch)
    (aad acc : Bytes) (n : Nat) (unenc : Bool) (v2 : PyVal)
    (ht : treeRound t = true) (hb : branchRound b = true)
    (hbk : ∀ p ∈ b, strEndsWith p.1 suffix = true)
    (hv2 : pyTruthy v2 = true) :
    walkEncTree key suffix ivs t aad true (some acc) n =
      (t, some (acc ++ treeDelta t), n + numScalars t) ∧
    walkEncEntries key suffix ivs false b aad unenc (some acc) n =
      (b, some (acc ++ branchDelta b), n + branchNumScalars b) ∧
    (∃ r, (encrypt v2 key aad none (some acc) false (ivs n)).1 =
      .vstr (String.mk (tokStart ++ r))) := by
  refine ⟨walkEncTree_unenc key suffix ivs t aad acc n ht,
    walkEncEntries_suffixed key suffix ivs b aad acc n unenc hb hbk, ?_⟩
  have hf0 : (!pyTruthy v2 && !isBoolVal v2) = false := by simp [hv2]
  rw [encrypt_token v2 key aad (some acc) (ivs n) hf0]
  exact ⟨_, by rw [show formatToken (to_bytes v2) (ivs n)
    (mkTag key (ivs n) aad (to_bytes v2)) (valtypeOf v2) =
    tokStart ++ (b64encode (to_bytes v2) ++ (",iv:".data ++ (b64encode (ivs n) ++
      (",tag:".data ++ (b64encode (mkTag key (ivs n) aad (to_bytes v2)) ++
        (",type:".data ++ ((valtypeOf v2).data ++ "]".data))))))) from by
    simp [formatToken, List.append_assoc]]⟩

/-- Witness for `C5_unencrypted_suffix_sticky`: a string under the
suffix flag, one `str_unencrypted` entry, and a truthy sibling value. -/
theorem C5_unencrypted_suffix_sticky_witness :
    treeRound (.scalar (.vstr "v")) = true ∧
      branchRound [("str_unencrypted", Tree.scalar (.vstr "w"))] = true ∧
      (∀ p ∈ [("str_unencrypted", Tree.scalar (.vstr "w"))],
        strEndsWith p.1 "_unencrypted" = true) ∧
      pyTruthy (.vstr "foo") = true ∧
      (walkEncTree [] "_unencrypted" (fun _ => ['i']) (.scalar (.vstr "v")) [] true
          (some []) 0 =
        (.scalar (.vstr "v"), some ([] ++ treeDelta (.scalar (.vstr "v"))),
          0 + numScalars (.scalar (.vstr "v")))) := by
  refine ⟨by decide, by decide, by decide, by decide, ?_⟩
  exact (C5_unencrypted_suffix_sticky [] "_unencrypted" (fun _ => ['i'])
    (.scalar (.vstr "v")) [("str_unencrypted", Tree.scalar (.vstr "w"))] [] [] 0 false
    (.vstr "foo") (by decide) (by decide) (by decide) (by decide)).1

/-- `C5` counterexample: the claim as stated fails on falsy leaves — the
integer `0` under the suffixed key `a_unencrypted` is **not** left
byte-for-byte unchanged (it becomes the empty string) and its bytes are
**not** folded into the digest (which stays empty). -/
theorem C5_counterexample_falsy_under_suffix :
    walkEncEntries [] "_unencrypted" (fun _ => ['i']) false
        [("a_unencrypted", Tree.scalar (.vint 0))] [] false (some []) 0 =
      ([("a_unencrypted", Tree.scalar (.vstr ""))], some [], 1) ∧
      (PyVal.vint 0 ≠ .vstr "") := by
  exact ⟨rfl, by decide⟩

/-! ## Round trip of the inner walks (current format version) -/

mutual

theorem rtTree (key : Bytes) (suffix : String) (ivs : Nat → Bytes)
    (t : Tree) : ∀ (aad acc dacc : Bytes) (n : Nat) (unenc : Bool),
    (∀ m, ivs m ≠ []) → treeRound t = true →
    walkDecTree key suffix true true
        (walkEncTree key suffix ivs t aad unenc (some acc) n).1 aad unenc (some dacc) =
      .ok (t, some (dacc ++ treeDelta t)) := by
  cases t with
  | scalar v =>
    intro aad acc dacc n unenc hivs hv
    have hdec := decrypt_encrypt_leaf v key aad (some acc) (some dacc) (ivs n) (hivs n)
      unenc (by simpa [treeRound] using hv)
    show walkDecTree key suffix true true
      (Tree.scalar (encrypt v key aad none (some acc) unenc (ivs n)).1)
      aad unenc (some dacc) = _
    simp only [walkDecTree, hdec]
    rfl
  | map m =>
    intro aad acc dacc n unenc hivs hv
    have hrt := rtEntries key suffix ivs m aad aad acc dacc n unenc hivs
      (by simpa [treeRound] using hv)
    show walkDecTree key suffix true true
      (Tree.map (walkEncEntries key suffix ivs false m aad unenc (some acc) n).1)
      aad unenc (some dacc) = _
    simp only [walkDecTree, hrt]
    rfl
  | arr l =>
    intro aad acc dacc n unenc hivs hv
    have hrt := rtItems key suffix ivs l aad acc dacc n unenc hivs
      (by simpa [treeRound] using hv)
    show walkDecTree key suffix true true
      (Tree.arr (walkEncItems key suffix ivs l aad unenc (some acc) n).1)
      aad unenc (some dacc) = _
    simp only [walkDecTree, hrt]
    rfl

theorem rtEntries (key : Bytes) (suffix : String) (ivs : Nat → Bytes)
    (b : Branch) : ∀ (aad carry acc dacc : Bytes) (n : Nat) (unenc : Bool),
    (∀ m, ivs m ≠ []) → branchRound b = true →
    walkDecEntries key suffix true true false
        (walkEncEntries key suffix ivs false b aad unenc (some acc) n).1
        aad carry unenc (some dacc) =
      .ok (b, some (dacc ++ branchDelta b)) := by
  cases b with
  | nil =>
    intro aad carry acc dacc n unenc _ _
    show walkDecEntries key suffix true true false [] aad carry unenc (some dacc) = _
    simp [walkDecEntries, branchDelta]
  | cons e rest =>
    intro aad carry acc dacc n unenc hivs hv
    rcases e with ⟨k, v⟩
    rw [branchRound] at hv
    simp only [Bool.and_eq_true] at hv
    rw [walkEncEntries, if_neg (by simp)]
    simp only []
    have hrtv := rtTree key suffix ivs v (aad ++ k.data ++ [':']) acc dacc n
      (unenc || strEndsWith k suffix) hivs hv.1
    have hdig := walkEncTree_digest key suffix ivs v (aad ++ k.data ++ [':'])
      (unenc || strEndsWith k suffix) acc n
    rw [hdig]
    have hrtr := rtEntries key suffix ivs rest aad carry (acc ++ treeDelta v)
      (dacc ++ treeDelta v)
      ((walkEncTree key suffix ivs v (aad ++ k.data ++ [':'])
        (unenc || strEndsWith k suffix) (some acc) n).2.2) unenc hivs hv.2
    simp only [List.append_assoc] at hrtv hrtr
    simp only [walkDecEntries, Bool.false_eq_true, false_and, if_false, if_true,
      hrtv, hrtr, branchDelta, List.append_assoc]

theorem rtItems (key : Bytes) (suffix : String) (ivs : Nat → Bytes)
    (l : List Tree) : ∀ (aad acc dacc : Bytes) (n : Nat) (unenc : Bool),
    (∀ m, ivs m ≠ []) → itemsRound l = true →
    walkDecItems key suffix true true
        (walkEncItems key suffix ivs l aad unenc (some acc) n).1 aad unenc (some dacc) =
      .ok (l, some (dacc ++ itemsDelta l)) := by
  cases l with
  | nil =>
    intro aad acc dacc n unenc _ _
    show walkDecItems key suffix true true [] aad unenc (some dacc) = _
    simp [walkDecItems, itemsDelta]
  | cons v rest =>
    intro aad acc dacc n unenc hivs hv
    rw [itemsRound] at hv
    simp only [Bool.and_eq_true] at hv
    rw [walkEncItems]
    simp only []
    have hrtv := rtTree key suffix ivs v aad acc dacc n unenc hivs hv.1
    have hdig := walkEncTree_digest key suffix ivs v aad unenc acc n
    rw [hdig]
    have hrtr := rtItems key suffix ivs rest aad (acc ++ treeDelta v)
      (dacc ++ treeDelta v)
      ((walkEncTree key suffix ivs v aad unenc (some acc) n).2.2) unenc hivs hv.2
    simp only [walkDecItems, hrtv, hrtr, itemsDelta, List.append_assoc]

end

/-! ## Round trip at the root (claim C1) -/

/-- Every non-`sops` root entry has round-trippable leaves. -/
def rootRound : Branch → Bool
  | [] => true
  | (k, t) :: rest => (if k = "sops" then true else treeRound t) && rootRound rest

/-- The digest contribution of a root branch (the `sops` entry is skipped
by both walks). -/
def rootDelta : Branch → Bytes
  | [] => []
  | (k, t) :: rest => (if k = "sops" then [] else treeDelta t) ++ rootDelta rest

theorem lookupB_setKeyB_self (b : Branch) (k : String) (v : Tree) :
    lookupB (setKeyB b k v) k = some v := by
  induction b with
  | nil => simp [setKeyB, lookupB]
  | cons e rest ih =>
    rcases e with ⟨k1, v1⟩
    by_cases h : k1 = k
    · subst h; simp [setKeyB, lookupB]
    · simp [setKeyB, lookupB, h, ih]

theorem lookupB_setKeyB_ne (b : Branch) (k k2 : String) (v : Tree) (h : ¬ k = k2) :
    lookupB (setKeyB b k v) k2 = lookupB b k2 := by
  induction b with
  | nil => simp [setKeyB, lookupB, h]
  | cons e rest ih =>
    rcases e with ⟨k1, v1⟩
    by_cases h1 : k1 = k
    · subst h1; simp [setKeyB, lookupB, h]
    · simp [setKeyB, lookupB, h1, ih]

/-- The root encryption loop keeps the value of every `sops` entry. -/
theorem lookupB_walkEncEntries_sops (key : Bytes) (suffix : String) (ivs : Nat → Bytes)
    (b : Branch) : ∀ (aad : Bytes) (unenc : Bool) (acc : Option Bytes) (n : Nat),
    lookupB (walkEncEntries key suffix ivs true b aad unenc acc n).1 "sops" =
      lookupB b "sops" := by
  induction b with
  | nil => intro aad unenc acc n; rfl
  | cons e rest ih =>
    intro aad unenc acc n
    rcases e with ⟨k, v⟩
    by_cases h : k = "sops"
    · subst h
      rw [walkEncEntries, if_pos (by simp)]
      simp [lookupB]
    · rw [walkEncEntries, if_neg (by simp [h])]
      simp only [lookupB, if_neg h]
      rw [ih]

/-- Digest accumulated by a root encryption loop. -/
theorem walkEncEntries_root_digest (key : Bytes) (suffix : String) (ivs : Nat → Bytes)
    (b : Branch) : ∀ (acc : Bytes) (n : Nat),
    (walkEncEntries key suffix ivs true b [] false (some acc) n).2.1 =
      some (acc ++ rootDelta b) := by
  induction b with
  | nil => intro acc n; simp [walkEncEntries, rootDelta]
  | cons e rest ih =>
    intro acc n
    rcases e with ⟨k, v⟩
    by_cases h : k = "sops"
    · subst h
      rw [walkEncEntries, if_pos (by simp)]
      simp only []
      rw [ih]
      simp [rootDelta]
    · rw [walkEncEntries, if_neg (by simp [h])]
      simp only []
      rw [walkEncTree_digest key suffix ivs v]
      rw [ih]
      simp [rootDelta, h, List.append_assoc]

/-- Round trip of the root entry loop without any `sops` replacement. -/
theorem rtRootEntriesPlain (key : Bytes) (suffix : String) (ivs : Nat → Bytes)
    (b : Branch) : ∀ (acc dacc : Bytes) (n : Nat),
    (∀ m, ivs m ≠ []) → rootRound b = true →
    walkDecEntries key suffix true true true
        (walkEncEntries key suffix ivs true b [] false (some acc) n).1
        [] [] false (some dacc) =
      .ok (b, some (dacc ++ rootDelta b)) := by
  induction b with
  | nil =>
    intro acc dacc n _ _
    show walkDecEntries key suffix true true true [] [] [] false (some dacc) = _
    simp [walkDecEntries, rootDelta]
  | cons e rest ih =>
    intro acc dacc n hivs hg
    rcases e with ⟨k, v⟩
    rw [rootRound] at hg
    simp only [Bool.and_eq_true] at hg
    by_cases h : k = "sops"
    · subst h
      rw [walkEncEntries, if_pos (by simp)]
      simp only []
      rw [walkDecEntries, if_pos (by simp)]
      have hplain := ih acc dacc n hivs hg.2
      simp only [hplain]
      simp [rootDelta]
    · rw [walkEncEntries, if_neg (by simp [h])]
      simp only []
      have hgv : treeRound v = true := by
        rcases hg with ⟨hg1, _⟩
        rwa [if_neg h] at hg1
      have hrtv := rtTree key suffix ivs v ([] ++ k.data ++ [':']) acc dacc n
        (false || strEndsWith k suffix) hivs hgv
      have hdig := walkEncTree_digest key suffix ivs v ([] ++ k.data ++ [':'])
        (false || strEndsWith k suffix) acc n
      rw [hdig]
      have hrtr := ih (acc ++ treeDelta v) (dacc ++ treeDelta v)
        ((walkEncTree key suffix ivs v ([] ++ k.data ++ [':'])
          (false || strEndsWith k suffix) (some acc) n).2.2) hivs hg.2
      simp only [List.append_assoc] at hrtv hrtr
      simp only [walkDecEntries, h, and_false, false_and, if_false, if_true,
        hrtv, hrtr, rootDelta, if_neg h, List.append_assoc]

/-- Round trip of the root entry loop, with the `sops` value replaced
between the two passes (as `walk_and_encrypt` does when it stores
`lastmodified` and `mac`): the decrypted branch is the original branch
with only its `sops` value replaced, and the decryption digest re-reads
exactly the bytes the encryption pass wrote. -/
theorem rtRootEntries (key : Bytes) (suffix : String) (ivs : Nat → Bytes)
    (b : Branch) (X : Tree) : ∀ (acc dacc : Bytes) (n : Nat),
    (∀ m, ivs m ≠ []) → rootRound b = true →
    walkDecEntries key suffix true true true
        (setKeyB (walkEncEntries key suffix ivs true b [] false (some acc) n).1 "sops" X)
        [] [] false (some dacc) =
      .ok (setKeyB b "sops" X, some (dacc ++ rootDelta b)) := by
  induction b with
  | nil =>
    intro acc dacc n _ _
    show walkDecEntries key suffix true true true [("sops", X)] [] [] false (some dacc) = _
    simp [walkDecEntries, setKeyB, rootDelta]
  | cons e rest ih =>
    intro acc dacc n hivs hg
    rcases e with ⟨k, v⟩
    rw [rootRound] at hg
    simp only [Bool.and_eq_true] at hg
    by_cases h : k = "sops"
    · subst h
      rw [walkEncEntries, if_pos (by simp)]
      simp only [setKeyB, if_pos rfl]
      have hplain := rtRootEntriesPlain key suffix ivs rest acc dacc n hivs hg.2
      simp only [walkDecEntries, eq_self_iff_true, and_self, true_and, if_true, hplain]
      simp [setKeyB, rootDelta]
    · rw [walkEncEntries, if_neg (by simp [h])]
      simp only [setKeyB, if_neg h]
      have hgv : treeRound v = true := by
        rcases hg with ⟨hg1, _⟩
        rwa [if_neg h] at hg1
      have hrtv := rtTree key suffix ivs v ([] ++ k.data ++ [':']) acc dacc n
        (false || strEndsWith k suffix) hivs hgv
      have hdig := walkEncTree_digest key suffix ivs v ([] ++ k.data ++ [':'])
        (false || strEndsWith k suffix) acc n
      rw [hdig]
      have hrtr := ih (acc ++ treeDelta v) (dacc ++ treeDelta v)
        ((walkEncTree key suffix ivs v ([] ++ k.data ++ [':'])
          (false || strEndsWith k suffix) (some acc) n).2.2) hivs hg.2
      simp only [List.append_assoc] at hrtv hrtr
      simp only [walkDecEntries, h, and_false, false_and, if_false, if_true,
        hrtv, hrtr, rootDelta, if_neg h, List.append_assoc, setKeyB]

/-- `C1` (amended): for every document tree whose `sops` entry holds a
mapping and none of whose other scalar leaves is a falsy non-boolean
(integer `0`, float `0.0`, empty byte string, null — see the
counterexample), encrypting with `walk_and_encrypt` and decrypting the
result with `walk_and_decrypt` under the same data key succeeds,
passes the MAC check, and returns the original tree exactly — same
mapping-key order, same values, same scalar types (integers, floats and
exponential-notation floats included) — except for the `sops` entry
itself, which `walk_and_encrypt` rewrote (`lastmodified`/`mac`).  `ivs`
is the `os.urandom(32)` stream (nonempty draws). -/
theorem C1_round_trip (branch : Branch) (key : Bytes) (suffix : String)
    (ivs : Nat → Bytes) (now : String) (sm : Branch)
    (hivs : ∀ m, ivs m ≠ []) (hs : lookupB branch "sops" = some (.map sm))
    (hg : rootRound branch = true) :
    ∃ encB sops2,
      walk_and_encrypt branch key suffix ivs now = .ok encB ∧
      walk_and_decrypt encB key suffix "1.13" false =
        .ok (setKeyB branch "sops" (.map sops2)) := by
  have hlook : lookupB (walkEncEntries key suffix ivs true branch [] false
      (some []) 0).1 "sops" = some (.map sm) := by
    rw [lookupB_walkEncEntries_sops]; exact hs
  have hdig := walkEncEntries_root_digest key suffix ivs branch [] 0
  refine ⟨setKeyB (walkEncEntries key suffix ivs true branch [] false (some []) 0).1
      "sops" (.map (setKeyB (setKeyB sm "lastmodified" (.scalar (.vstr now))) "mac"
      (.scalar (encrypt (.vstr (String.mk (sha512HexUpper ([] ++ rootDelta branch))))
        key now.data none none false
        (ivs (walkEncEntries key suffix ivs true branch [] false (some []) 0).2.2)).1))),
    setKeyB (setKeyB sm "lastmodified" (.scalar (.vstr now))) "mac"
      (.scalar (encrypt (.vstr (String.mk (sha512HexUpper ([] ++ rootDelta branch))))
        key now.data none none false
        (ivs (walkEncEntries key suffix ivs true branch [] false (some []) 0).2.2)).1),
    ?_, ?_⟩
  · unfold walk_and_encrypt
    simp only [hlook, hdig, Option.getD_some]
  · have h09 : A_is_newer_than_B "1.13" "0.9" = true := by decide
    have h08 : A_is_newer_than_B "1.13" "0.8" = true := by decide
    have hroot := rtRootEntries key suffix ivs branch
      (.map (setKeyB (setKeyB sm "lastmodified" (.scalar (.vstr now))) "mac"
        (.scalar (encrypt (.vstr (String.mk (sha512HexUpper ([] ++ rootDelta branch))))
          key now.data none none false
          (ivs (walkEncEntries key suffix ivs true branch [] false (some []) 0).2.2)).1)))
      [] [] 0 hivs hg
    have hmac : lookupB (setKeyB (setKeyB sm "lastmodified" (.scalar (.vstr now))) "mac"
        (.scalar (encrypt (.vstr (String.mk (sha512HexUpper ([] ++ rootDelta branch))))
          key now.data none none false
          (ivs (walkEncEntries key suffix ivs true branch [] false (some []) 0).2.2)).1))
        "mac" =
      some (.scalar (encrypt (.vstr (String.mk (sha512HexUpper ([] ++ rootDelta branch))))
        key now.data none none false
        (ivs (walkEncEntries key suffix ivs true branch [] false (some []) 0).2.2)).1) :=
      lookupB_setKeyB_self _ _ _
    have hlm : lookupB (setKeyB (setKeyB sm "lastmodified" (.scalar (.vstr now))) "mac"
        (.scalar (encrypt (.vstr (String.mk (sha512HexUpper ([] ++ rootDelta branch))))
          key now.data none none false
          (ivs (walkEncEntries key suffix ivs true branch [] false (some []) 0).2.2)).1))
        "lastmodified" = some (.scalar (.vstr now)) := by
      rw [lookupB_setKeyB_ne _ _ _ _ (by decide)]
      exact lookupB_setKeyB_self _ _ _
    have hdecmac := decrypt_encrypt_leaf
      (.vstr (String.mk (sha512HexUpper ([] ++ rootDelta branch)))) key now.data none none
      (ivs (walkEncEntries key suffix ivs true branch [] false (some []) 0).2.2)
      (hivs _) false rfl
    unfold walk_and_decrypt
    rw [h09, h08]
    simp only [Bool.false_eq_true, if_false, hroot, lookupB_setKeyB_self, hmac, hlm,
      hdecmac, Option.getD_some, updDigest, Option.map_none']
    simp

/-- `C1` counterexample: the claim as stated (for *every* tree) fails on
a tree holding the integer leaf `0`: the encryption pass stores `""` for
it (see `C3`), decryption passes the MAC check and returns the empty
*string* where the integer `0` stood — value and type are lost. -/
theorem C1_counterexample_zero_leaf :
    ((walk_and_encrypt [("a", Tree.scalar (.vint 0)), ("sops", Tree.map [])]
        [] "_unencrypted" (fun _ => ['i']) "T").bind
      (fun encB => (walk_and_decrypt encB [] "_unencrypted" "1.13" false).map
        (fun decB => lookupB decB "a"))) = .ok (some (Tree.scalar (.vstr ""))) ∧
    (PyVal.vstr "" ≠ .vint 0) := by
  refine ⟨?_, by decide⟩
  have hA : walkEncEntries [] "_unencrypted" (fun _ => ['i']) true
      [("a", Tree.scalar (.vint 0)), ("sops", Tree.map [])] [] false (some []) 0 =
      ([("a", Tree.scalar (.vstr "")), ("sops", Tree.map [])], some [], 1) := by
    simp +decide only [walkEncEntries, walkEncTree, encrypt, pyTruthy, isBoolVal,
      strEndsWith, updDigest, if_true, if_false, Option.map_some', Option.map_none']
  have hB : walk_and_encrypt [("a", Tree.scalar (.vint 0)), ("sops", Tree.map [])]
      [] "_unencrypted" (fun _ => ['i']) "T" =
      .ok [("a", Tree.scalar (.vstr "")),
        ("sops", Tree.map [("lastmodified", Tree.scalar (.vstr "T")),
          ("mac", Tree.scalar (encrypt (.vstr (String.mk (sha512HexUpper [])))
            [] ("T" : String).data none none false ['i']).1)])] := by
    unfold walk_and_encrypt
    rw [hA]
    simp +decide only [lookupB, setKeyB, Option.getD_some, if_true, if_false]
  have hC : walkDecEntries [] "_unencrypted" true true true
      [("a", Tree.scalar (.vstr "")),
        ("sops", Tree.map [("lastmodified", Tree.scalar (.vstr "T")),
          ("mac", Tree.scalar (encrypt (.vstr (String.mk (sha512HexUpper [])))
            [] ("T" : String).data none none false ['i']).1)])]
      [] [] false (some []) =
      .ok ([("a", Tree.scalar (.vstr "")),
        ("sops", Tree.map [("lastmodified", Tree.scalar (.vstr "T")),
          ("mac", Tree.scalar (encrypt (.vstr (String.mk (sha512HexUpper [])))
            [] ("T" : String).data none none false ['i']).1)])], some []) := by
    simp +decide only [walkDecEntries, walkDecTree, decrypt, decryptTok,
      parseEncValue, tokStart, strEndsWith, updDigest, if_true, if_false,
      Option.map_some', Option.map_none']
  have hD := decrypt_encrypt_leaf (.vstr (String.mk (sha512HexUpper [])))
    [] ("T" : String).data none none ['i'] (by simp) false rfl
  have hE : walk_and_decrypt [("a", Tree.scalar (.vstr "")),
      ("sops", Tree.map [("lastmodified", Tree.scalar (.vstr "T")),
        ("mac", Tree.scalar (encrypt (.vstr (String.mk (sha512HexUpper [])))
          [] ("T" : String).data none none false ['i']).1)])]
      [] "_unencrypted" "1.13" false =
      .ok [("a", Tree.scalar (.vstr "")),
        ("sops", Tree.map [("lastmodified", Tree.scalar (.vstr "T")),
          ("mac", Tree.scalar (encrypt (.vstr (String.mk (sha512HexUpper [])))
            [] ("T" : String).data none none false ['i']).1)])] := by
    unfold walk_and_decrypt
    rw [show A_is_newer_than_B "1.13" "0.9" = true from by decide,
      show A_is_newer_than_B "1.13" "0.8" = true from by decide]
    simp +decide only [Bool.false_eq_true, if_false, if_true, hC, lookupB, hD,
      updDigest, Option.getD_some, Option.map_none']
  rw [hB]
  show (walk_and_decrypt _ [] "_unencrypted" "1.13" false).map
    (fun decB => lookupB decB "a") = _
  rw [hE]
  show Except.ok (lookupB _ "a") = _
  simp +decide only [lookupB, if_true, if_false]

/-- Witness for `C1_round_trip` on a one-secret document. -/
theorem C1_round_trip_witness :
    (∀ m : Nat, (fun _ => ['i'] : Nat → Bytes) m ≠ []) ∧
    lookupB [("k", Tree.scalar (.vstr "hello")), ("sops", Tree.map [])] "sops" =
      some (.map []) ∧
    rootRound [("k", Tree.scalar (.vstr "hello")), ("sops", Tree.map [])] = true ∧
    (∃ encB sops2,
      walk_and_encrypt [("k", Tree.scalar (.vstr "hello")), ("sops", Tree.map [])]
        ['K'] "_unencrypted" (fun _ => ['i']) "T" = .ok encB ∧
      walk_and_decrypt encB ['K'] "_unencrypted" "1.13" false =
        .ok (setKeyB [("k", Tree.scalar (.vstr "hello")), ("sops", Tree.map [])] "sops"
          (.map sops2))) := by
  refine ⟨fun m => by simp, rfl, by decide, ?_⟩
  exact C1_round_trip _ ['K'] "_unencrypted" (fun _ => ['i']) "T" []
    (fun m => by simp) rfl (by decide)

/-! ## Claim C10: clear scalars in encrypted positions are invisible to the MAC -/

theorem decrypt_clear_passthrough (s : String) (key aad : Bytes) (dig : Option Bytes)
    (hp : parseEncValue true s.data = none) :
    decrypt (.vstr s) key aad dig false true = .ok (.vstr s, dig) := by
  unfold decrypt
  rw [if_neg (by simp)]
  show decryptTok s key aad dig true = _
  unfold decryptTok
  rw [hp]

theorem lookupB_append_left (b l : Branch) (k : String) (v : Tree)
    (h : lookupB b k = some v) : lookupB (b ++ l) k = some v := by
  induction b with
  | nil => simp [lookupB] at h
  | cons e rest ih =>
    rcases e with ⟨k1, v1⟩
    rw [lookupB] at h
    by_cases hk : k1 = k
    · rw [List.cons_append, lookupB, if_pos hk]
      rwa [if_pos hk] at h
    · rw [List.cons_append, lookupB, if_neg hk]
      rw [if_neg hk] at h
      exact ih h

/-- Appending one clear (non-token, non-suffixed, non-`sops`) string
scalar entry to a root branch leaves the decryption walk's result on the
other entries and its digest unchanged; the new entry is passed through. -/
theorem walkDecEntries_append_clear (key : Bytes) (suffix : String) (b : Branch) :
    ∀ (aad carry : Bytes) (dig : Option Bytes) (b2 : Branch) (d2 : Option Bytes)
      (k s : String),
    walkDecEntries key suffix true true true b aad carry false dig = .ok (b2, d2) →
    strEndsWith k suffix = false → ¬ k = "sops" → parseEncValue true s.data = none →
    walkDecEntries key suffix true true true (b ++ [(k, Tree.scalar (.vstr s))])
        aad carry false dig =
      .ok (b2 ++ [(k, Tree.scalar (.vstr s))], d2) := by
  induction b with
  | nil =>
    intro aad carry dig b2 d2 k s hw hk hks hp
    rw [show walkDecEntries key suffix true true true [] aad carry false dig =
      .ok ([], dig) from rfl] at hw
    injection hw with h
    obtain ⟨h1, h2⟩ := Prod.mk.inj h
    rw [List.nil_append, ← h1, ← h2, List.nil_append]
    rw [walkDecEntries, if_neg (by simp [hks])]
    have hdec := decrypt_clear_passthrough s key (aad ++ k.data ++ [':']) dig hp
    simp only [hk, Bool.or_false, if_true]
    rw [show walkDecTree key suffix true true (Tree.scalar (.vstr s))
        (aad ++ k.data ++ [':']) false dig =
      (match decrypt (.vstr s) key (aad ++ k.data ++ [':']) dig false true with
        | Except.ok r => Except.ok (Tree.scalar r.1, r.2)
        | Except.error e => Except.error e) from by rw [walkDecTree], hdec]
    have hnil : walkDecEntries key suffix true true true [] aad carry false dig =
      Except.ok ([], dig) := rfl
    simp only [hnil]
  | cons e rest ih =>
    intro aad carry dig b2 d2 k s hw hk hks hp
    rcases e with ⟨k1, v1⟩
    by_cases h1 : k1 = "sops"
    · subst h1
      rw [walkDecEntries, if_pos (by simp)] at hw
      rw [List.cons_append, walkDecEntries, if_pos (by simp)]
      rcases hr : walkDecEntries key suffix true true true rest aad carry false dig with e2 | r2
      · rw [hr] at hw; exact absurd hw (by simp)
      · rw [hr] at hw
        simp only [] at hw
        obtain ⟨hb, hd⟩ := Prod.mk.inj (Except.ok.inj hw)
        rw [ih aad carry dig r2.1 r2.2 k s (by rw [hr]) hk hks hp]
        simp only []
        rw [← hb, ← hd, List.cons_append]
    · rw [walkDecEntries, if_neg (by simp [h1])] at hw
      rw [List.cons_append, walkDecEntries, if_neg (by simp [h1])]
      simp only [if_true] at hw ⊢
      rcases hv : walkDecTree key suffix true true v1 (aad ++ k1.data ++ [':'])
          (false || strEndsWith k1 suffix) dig with e2 | rv
      · rw [hv] at hw; exact absurd hw (by simp)
      · rw [hv] at hw
        simp only [] at hw ⊢
        rcases hr : walkDecEntries key suffix true true true rest aad carry false rv.2
            with e3 | rr
        · rw [hr] at hw; exact absurd hw (by simp)
        · rw [hr] at hw
          simp only [] at hw
          obtain ⟨hb, hd⟩ := Prod.mk.inj (Except.ok.inj hw)
          rw [ih aad carry rv.2 rr.1 rr.2 k s (by rw [hr]) hk hks hp]
          simp only []
          rw [← hb, ← hd, List.cons_append]

/-- `C10`: (a) a scalar string in an encrypted (non-suffixed) position
whose text does not match the token pattern is returned unchanged by
`decrypt` and contributes nothing to the running digest; consequently
(b) appending such a clear scalar entry to any document that decrypts
successfully yields a document whose recomputed digest still equals the
stored one, so `walk_and_decrypt`'s MAC check passes on the modified
document and the pass returns normally. -/
theorem C10_clear_scalar_undetected (s k : String) (key aad : Bytes)
    (dig : Option Bytes) (suffix : String) (B T : Branch)
    (hp : parseEncValue true s.data = none)
    (hk : strEndsWith k suffix = false) (hks : ¬ k = "sops")
    (hB : walk_and_decrypt B key suffix "1.13" false = .ok T) :
    decrypt (.vstr s) key aad dig false true = .ok (.vstr s, dig) ∧
    walk_and_decrypt (B ++ [(k, Tree.scalar (.vstr s))]) key suffix "1.13" false =
      .ok (T ++ [(k, Tree.scalar (.vstr s))]) := by
  refine ⟨decrypt_clear_passthrough s key aad dig hp, ?_⟩
  have h09 : A_is_newer_than_B "1.13" "0.9" = true := by decide
  have h08 : A_is_newer_than_B "1.13" "0.8" = true := by decide
  unfold walk_and_decrypt at hB ⊢
  rw [h09, h08] at hB ⊢
  simp only [Bool.false_eq_true, if_false] at hB ⊢
  rcases hw : walkDecEntries key suffix true true true B [] [] false (some [])
      with e1 | r1
  · rw [hw] at hB; exact absurd hB (by simp)
  · rw [hw] at hB
    rw [walkDecEntries_append_clear key suffix B [] [] (some []) r1.1 r1.2 k s
      (by rw [hw]) hk hks hp]
    simp only [] at hB ⊢
    rcases hsops : lookupB r1.1 "sops" with _ | sv
    · rw [hsops] at hB; exact absurd hB (by simp)
    · rw [lookupB_append_left r1.1 [(k, Tree.scalar (.vstr s))] "sops" sv hsops]
      rw [hsops] at hB
      cases sv with
      | scalar v0 => exact absurd hB (by simp)
      | arr l0 => exact absurd hB (by simp)
      | map m =>
        simp only [] at hB ⊢
        split at hB
        · exact absurd hB (by simp)
        · next macT heqmac =>
          split at hB
          · next lm heqlm =>
            split at hB
            · next mv heqmv =>
              split at hB
              · exact absurd hB (by simp)
              · next origh snd heqdec =>
                split at hB
                · next hif =>
                  rw [if_pos hif, Except.ok.inj hB]
                · exact absurd hB (by simp)
            · exact absurd hB (by simp)
          · exact absurd hB (by simp)

/-- A minimal well-MACed document: no data leaves, so the digest is the
hash of the empty stream, and the `mac` entry encrypts exactly that. -/
def c10doc : Branch :=
  [("sops", .map [("lastmodified", .scalar (.vstr "T")),
    ("mac", .scalar (encrypt (.vstr (String.mk (sha512HexUpper [])))
      ['K'] "T".data none none false ['i']).1)])]

theorem c10doc_decrypts :
    walk_and_decrypt c10doc ['K'] "_unencrypted" "1.13" false = .ok c10doc := by
  have h09 : A_is_newer_than_B "1.13" "0.9" = true := by decide
  have h08 : A_is_newer_than_B "1.13" "0.8" = true := by decide
  have hwalk : walkDecEntries ['K'] "_unencrypted" true true true c10doc
      [] [] false (some []) = .ok (c10doc, some []) := by
    rw [c10doc, walkDecEntries, if_pos (by simp)]
    rfl
  have hmac := decrypt_encrypt_leaf (.vstr (String.mk (sha512HexUpper [])))
    ['K'] "T".data none none ['i'] (by decide) false rfl
  unfold walk_and_decrypt
  rw [h09, h08]
  simp only [Bool.false_eq_true, if_false, hwalk]
  rw [show lookupB c10doc "sops" = some (.map [("lastmodified", .scalar (.vstr "T")),
    ("mac", .scalar (encrypt (.vstr (String.mk (sha512HexUpper [])))
      ['K'] "T".data none none false ['i']).1)]) from rfl]
  simp only [lookupB, if_true, if_neg (by decide : ¬ ("lastmodified" = "mac")),
    if_pos (rfl : ("mac" = "mac")), if_pos (rfl : ("lastmodified" = "lastmodified"))]
  rw [hmac]
  exact rfl

/-- `C10` at concrete inputs: `c10doc` is a well-MACed document; both the
leaf clear-scalar passthrough and the undetected insertion of the clear
entry `("k", "x")` are realised on it. -/
theorem C10_clear_scalar_undetected_witness :
    (decrypt (.vstr "x") ['K'] [] (some []) false true = .ok (.vstr "x", some []) ∧
     walk_and_decrypt (c10doc ++ [("k", Tree.scalar (.vstr "x"))])
         ['K'] "_unencrypted" "1.13" false =
       .ok (c10doc ++ [("k", Tree.scalar (.vstr "x"))])) :=
  C10_clear_scalar_undetected "x" "k" ['K'] [] (some []) "_unencrypted" c10doc c10doc
    (by decide) (by decide) (by decide) c10doc_decrypts

/-! ## Claim C2: the MAC check's two fatal errors, and its blind spot -/

/-- `C2`: without `--ignore-mac`, once the decryption walk over the
document body has finished, a missing `sops.mac` entry is fatal with exit
code 52, and a `sops.mac` entry that AEAD-decrypts (with
`sops.lastmodified` as AAD) to anything other than the uppercase-hex
SHA-512 of the recomputed digest is fatal with exit code 51. -/
theorem C2_mac_absent_or_mismatch_fatal (B b1 : Branch) (key : Bytes)
    (suffix : String) (dig : Option Bytes) (m : List (String × Tree))
    (hw : walkDecEntries key suffix true true true B [] [] false (some []) =
      .ok (b1, dig))
    (hs : lookupB b1 "sops" = some (.map m)) :
    (lookupB m "mac" = none →
      walk_and_decrypt B key suffix "1.13" false = .error (.exit 52)) ∧
    (∀ mv lm origh snd,
      lookupB m "mac" = some (.scalar mv) →
      lookupB m "lastmodified" = some (.scalar (.vstr lm)) →
      decrypt mv key lm.data none false true = .ok (origh, snd) →
      ¬ origh = .vstr (String.mk (sha512HexUpper (dig.getD []))) →
      walk_and_decrypt B key suffix "1.13" false = .error (.exit 51)) := by
  constructor
  · intro hmac
    unfold walk_and_decrypt
    rw [show A_is_newer_than_B "1.13" "0.9" = true from by decide,
      show A_is_newer_than_B "1.13" "0.8" = true from by decide]
    simp only [Bool.false_eq_true, if_false, hw, hs, hmac]
  · intro mv lm origh snd hmac hlm hdec hne
    unfold walk_and_decrypt
    rw [show A_is_newer_than_B "1.13" "0.9" = true from by decide,
      show A_is_newer_than_B "1.13" "0.8" = true from by decide]
    simp only [Bool.false_eq_true, if_false, hw, hs, hmac, hlm, hdec]
    rw [if_neg hne]

/-- `C2` at concrete inputs: a document lacking `sops.mac` exits 52; a
document whose `sops.mac` decrypts to `"X"` instead of the digest's hex
exits 51. -/
theorem C2_mac_absent_or_mismatch_fatal_witness :
    walk_and_decrypt [("sops", Tree.map [])] ['C'] "_unencrypted" "1.13" false =
      .error (.exit 52) ∧
    walk_and_decrypt [("sops", Tree.map [("lastmodified", Tree.scalar (.vstr "T")),
        ("mac", Tree.scalar (encrypt (.vstr "X") ['C'] "T".data
          none none false ['i']).1)])]
      ['C'] "_unencrypted" "1.13" false = .error (.exit 51) := by
  constructor
  · exact (C2_mac_absent_or_mismatch_fatal [("sops", Tree.map [])]
      [("sops", Tree.map [])] ['C'] "_unencrypted" (some []) []
      (by rw [walkDecEntries, if_pos (by simp)]; rfl) rfl).1 rfl
  · exact (C2_mac_absent_or_mismatch_fatal
      [("sops", Tree.map [("lastmodified", Tree.scalar (.vstr "T")),
        ("mac", Tree.scalar (encrypt (.vstr "X") ['C'] "T".data
          none none false ['i']).1)])]
      [("sops", Tree.map [("lastmodified", Tree.scalar (.vstr "T")),
        ("mac", Tree.scalar (encrypt (.vstr "X") ['C'] "T".data
          none none false ['i']).1)])]
      ['C'] "_unencrypted" (some [])
      [("lastmodified", Tree.scalar (.vstr "T")),
        ("mac", Tree.scalar (encrypt (.vstr "X") ['C'] "T".data
          none none false ['i']).1)]
      (by rw [walkDecEntries, if_pos (by simp)]; rfl) rfl).2
      (encrypt (.vstr "X") ['C'] "T".data none none false ['i']).1 "T"
      (.vstr "X") (updDigest none (leafDelta (.vstr "X"))) rfl rfl
      (decrypt_encrypt_leaf (.vstr "X") ['C'] "T".data none none ['i']
        (by simp) false rfl)
      (by decide)

/-- `C2` counterexample to "tampering is always detected": the document
legitimately written by encrypting `{b: 0, sops: {}}` stores `""` for the
falsy leaf `b`, which contributes nothing to the digest; altering that
clear leaf to the string `"tampered"` (still a non-token, still digested
as nothing) yields a document that the decryption pass accepts and
returns normally — the alteration is not detected. -/
theorem C2_counterexample_tampered_accepted :
    walk_and_encrypt [("b", Tree.scalar (.vint 0)), ("sops", Tree.map [])]
        ['C'] "_unencrypted" (fun _ => ['i']) "T" =
      .ok [("b", Tree.scalar (.vstr "")),
        ("sops", Tree.map [("lastmodified", Tree.scalar (.vstr "T")),
          ("mac", Tree.scalar (encrypt (.vstr (String.mk (sha512HexUpper [])))
            ['C'] ("T" : String).data none none false ['i']).1)])] ∧
    walk_and_decrypt [("b", Tree.scalar (.vstr "tampered")),
        ("sops", Tree.map [("lastmodified", Tree.scalar (.vstr "T")),
          ("mac", Tree.scalar (encrypt (.vstr (String.mk (sha512HexUpper [])))
            ['C'] ("T" : String).data none none false ['i']).1)])]
        ['C'] "_unencrypted" "1.13" false =
      .ok [("b", Tree.scalar (.vstr "tampered")),
        ("sops", Tree.map [("lastmodified", Tree.scalar (.vstr "T")),
          ("mac", Tree.scalar (encrypt (.vstr (String.mk (sha512HexUpper [])))
            ['C'] ("T" : String).data none none false ['i']).1)])] ∧
    (PyVal.vstr "tampered" ≠ .vstr "") := by
  refine ⟨?_, ?_, by decide⟩
  · have hA : walkEncEntries ['C'] "_unencrypted" (fun _ => ['i']) true
        [("b", Tree.scalar (.vint 0)), ("sops", Tree.map [])] [] false (some []) 0 =
        ([("b", Tree.scalar (.vstr "")), ("sops", Tree.map [])], some [], 1) := by
      simp +decide only [walkEncEntries, walkEncTree, encrypt, pyTruthy, isBoolVal,
        strEndsWith, updDigest, if_true, if_false, Option.map_some', Option.map_none']
    unfold walk_and_encrypt
    rw [hA]
    simp +decide only [lookupB, setKeyB, Option.getD_some, if_true, if_false]
  · have hC : walkDecEntries ['C'] "_unencrypted" true true true
        [("b", Tree.scalar (.vstr "tampered")),
          ("sops", Tree.map [("lastmodified", Tree.scalar (.vstr "T")),
            ("mac", Tree.scalar (encrypt (.vstr (String.mk (sha512HexUpper [])))
              ['C'] ("T" : String).data none none false ['i']).1)])]
        [] [] false (some []) =
        .ok ([("b", Tree.scalar (.vstr "tampered")),
          ("sops", Tree.map [("lastmodified", Tree.scalar (.vstr "T")),
            ("mac", Tree.scalar (encrypt (.vstr (String.mk (sha512HexUpper [])))
              ['C'] ("T" : String).data none none false ['i']).1)])], some []) := by
      simp +decide only [walkDecEntries, walkDecTree, decrypt, decryptTok,
        parseEncValue, tokStart, strEndsWith, updDigest, if_true, if_false,
        Option.map_some', Option.map_none']
    have hD := decrypt_encrypt_leaf (.vstr (String.mk (sha512HexUpper [])))
      ['C'] ("T" : String).data none none ['i'] (by simp) false rfl
    unfold walk_and_decrypt
    rw [show A_is_newer_than_B "1.13" "0.9" = true from by decide,
      show A_is_newer_than_B "1.13" "0.8" = true from by decide]
    simp +decide only [Bool.false_eq_true, if_false, if_true, hC, lookupB, hD,
      updDigest, Option.getD_some, Option.map_none']

/-! ## Master-key bootstrap: verify_or_create_sops_branch (C6) -/

/-- `VERSION` (source line 42). -/
def VERSION : String := "1.13"

/-- The `attention` notice written into a fresh `sops` branch
(source lines 512–514). -/
def attentionMsg : String :=
  "This section contains key material that should only be modified with extra care. See `sops -h`."

/-- `s.find(sub)`: index of the first occurrence of `sub` in `s`, `-1`
when absent. -/
def findSub (sub : List Char) : List Char → Int
  | [] => if sub.isEmpty then 0 else -1
  | c :: cs =>
    if sub.isPrefixOf (c :: cs) then 0
    else
      let r := findSub sub cs
      if r = -1 then -1 else r + 1

/-- `s.replace(" ", "")`. -/
def stripSpaces (cs : List Char) : List Char := cs.filter (fun c => c != ' ')

/-- One KMS entry built from one comma-separated component of the
`--kms`/`SOPS_KMS_ARN` string (source lines 560–566): a `+arn:aws:iam::`
role suffix found at a positive offset is split out into a `role` field. -/
def kmsEntryOfArn (arn0 : List Char) : Tree :=
  let arn := stripSpaces arn0
  let rolepos := findSub "+arn:aws:iam::".data arn
  if 0 < rolepos then
    .map [("arn", .scalar (.vstr (String.mk (arn.take rolepos.toNat)))),
          ("role", .scalar (.vstr (String.mk (arn.drop (rolepos.toNat + 1)))))]
  else .map [("arn", .scalar (.vstr (String.mk arn)))]

/-- `parse_kms_arn` (source lines 554–570): reset `sops.kms` to the list
of entries parsed from the comma-separated string; the second component
is `has_at_least_one_method`. -/
def parse_kms_arn (tree : Branch) (kmsArns : String) :
    Except SopsError (Branch × Bool) :=
  match lookupB tree "sops" with
  | some (.map sm) =>
    let parts := splitOnChar ',' kmsArns.data
    .ok (setKeyB tree "sops" (.map (setKeyB sm "kms" (.arr (parts.map kmsEntryOfArn)))),
      !parts.isEmpty)
  | _ => .error .pyExn

/-- `parse_pgp_fp` (source lines 573–583). -/
def parse_pgp_fp (tree : Branch) (pgpFps : String) :
    Except SopsError (Branch × Bool) :=
  match lookupB tree "sops" with
  | some (.map sm) =>
    let parts := splitOnChar ',' pgpFps.data
    .ok (setKeyB tree "sops" (.map (setKeyB sm "pgp"
      (.arr (parts.map (fun fp => .map [("fp", .scalar (.vstr (String.mk (stripSpaces fp))))]))))),
      !parts.isEmpty)
  | _ => .error .pyExn

/-- Source lines 520–523 and 528–531, for one mapping entry: `entry and
Xidf in entry and entry[idf] != "" and Xenc in entry and entry[Xenc] != ""`.
A falsy entry is skipped by the `and` short-circuit; a truthy non-mapping
entry would raise `TypeError` in Python and is excluded by hypothesis in
the theorems over this definition; a non-scalar field value compares
unequal to `""` as in Python. -/
def usableKeyEntry (idf : String) : Tree → Bool
  | .map b => !b.isEmpty &&
      (match lookupB b idf with
       | some (.scalar v) => decide (¬ v = .vstr "")
       | some _ => true
       | none => false) &&
      (match lookupB b "enc" with
       | some (.scalar v) => decide (¬ v = .vstr "")
       | some _ => true
       | none => false)
  | _ => false

/-- An entry that Python's usable-key scan handles without raising:
either a mapping, or falsy (skipped). -/
def mapOrFalsy : Tree → Bool
  | .map _ => true
  | t => !t.truthy

/-- The usable-key scan over `sops[field]` (source lines 517–531): only a
list value is scanned, and a usable entry must have the identifying field
and `enc` both present and non-empty. -/
def usableIn (sm : Branch) (field idf : String) : Bool :=
  match lookupB sm field with
  | some (.arr l) => l.any (usableKeyEntry idf)
  | _ => false

/-- The bootstrap of a missing `sops` branch (source lines 510–516). -/
def bootstrapSops (tree : Branch) : Branch :=
  match lookupB tree "sops" with
  | some _ => tree
  | none => setKeyB tree "sops" (.map [("attention", .scalar (.vstr attentionMsg)),
      ("version", .scalar (.vstr VERSION)),
      ("unencrypted_suffix", .scalar (.vstr "_unencrypted"))])

/-- `verify_or_create_sops_branch` (source lines 501–551).  `kmsArns` and
`pgpFps` are the CLI/environment strings (`""` for absent, matching
Python truthiness); `config` is the outcome of `find_config_for_file`
(`none` when no rule matched, otherwise the rule's `kms` and `pgp`
strings with `""` for missing keys). -/
def verify_or_create_sops_branch (tree : Branch) (kmsArns pgpFps : String)
    (config : Option (String × String)) : Except SopsError (Branch × Bool) :=
  let t0 := bootstrapSops tree
  match lookupB t0 "sops" with
  | some (.map sm) =>
    if usableIn sm "kms" "arn" then .ok (t0, false)
    else if usableIn sm "pgp" "fp" then .ok (t0, false)
    else
      let eff := if kmsArns = "" ∧ pgpFps = "" then
          (match config with | some c => c | none => ("", ""))
        else (kmsArns, pgpFps)
      if ¬ eff.1 = "" then
        match parse_kms_arn t0 eff.1 with
        | .error e => .error e
        | .ok (t1, ham1) =>
          if ¬ eff.2 = "" then
            match parse_pgp_fp t1 eff.2 with
            | .error e => .error e
            | .ok (t2, ham2) =>
              if ham2 then .ok (t2, true) else .error (.exit 111)
          else if ham1 then .ok (t1, true) else .error (.exit 111)
      else if ¬ eff.2 = "" then
        match parse_pgp_fp t0 eff.2 with
        | .error e => .error e
        | .ok (t2, ham2) => if ham2 then .ok (t2, true) else .error (.exit 111)
      else .error (.exit 111)
  | _ => .error .pyExn

/-- `C6`: over a document whose `sops` entry is a mapping (with `kms`/
`pgp` lists containing only mappings or falsy entries, the shapes Python
scans without raising), `verify_or_create_sops_branch` reports that no
new data key is needed exactly when some `kms` entry has a non-empty
`arn` and a non-empty `enc`, or some `pgp` entry has a non-empty `fp`
and a non-empty `enc`; and when a new key is needed but the CLI/
environment strings are empty and the config rule supplies nothing, it
terminates fatally with exit code 111. -/
theorem C6_verify_branch (tree sm : Branch) (kmsArns pgpFps : String)
    (config : Option (String × String))
    (hsops : lookupB tree "sops" = some (.map sm))
    (hK : ∀ l, lookupB sm "kms" = some (.arr l) → ∀ e ∈ l, mapOrFalsy e = true)
    (hP : ∀ l, lookupB sm "pgp" = some (.arr l) → ∀ e ∈ l, mapOrFalsy e = true) :
    ((∃ t', verify_or_create_sops_branch tree kmsArns pgpFps config =
        .ok (t', false)) ↔
      (usableIn sm "kms" "arn" = true ∨ usableIn sm "pgp" "fp" = true)) ∧
    (usableIn sm "kms" "arn" = false → usableIn sm "pgp" "fp" = false →
      kmsArns = "" → pgpFps = "" → (config = none ∨ config = some ("", "")) →
      verify_or_create_sops_branch tree kmsArns pgpFps config =
        .error (.exit 111)) := by
  have hboot : bootstrapSops tree = tree := by unfold bootstrapSops; rw [hsops]
  constructor
  · unfold verify_or_create_sops_branch
    simp only [hboot, hsops]
    by_cases hk : usableIn sm "kms" "arn" = true
    · rw [if_pos hk]
      exact ⟨fun _ => Or.inl hk, fun _ => ⟨tree, rfl⟩⟩
    · rw [Bool.not_eq_true] at hk
      rw [hk]
      simp only [Bool.false_eq_true, if_false]
      by_cases hp : usableIn sm "pgp" "fp" = true
      · rw [if_pos hp]
        exact ⟨fun _ => Or.inr hp, fun _ => ⟨tree, rfl⟩⟩
      · rw [Bool.not_eq_true] at hp
        rw [hp]
        simp only [Bool.false_eq_true, if_false, false_or]
        constructor
        · rintro ⟨t', ht⟩
          repeat' split at ht
          all_goals simp at ht
        · intro h
          exact absurd h (by decide)
  · intro h1 h2 h3 h4 h5
    unfold verify_or_create_sops_branch
    simp only [hboot, hsops, h1, h2, Bool.false_eq_true, if_false, h3, h4]
    rcases h5 with h5 | h5 <;> rw [h5] <;> simp

/-- `C6` at a concrete input: a tree whose `sops.kms` list holds one
entry with non-empty `arn` and `enc`. -/
theorem C6_verify_branch_witness :
    ((∃ t', verify_or_create_sops_branch
        [("sops", Tree.map [("kms", Tree.arr [Tree.map
          [("arn", Tree.scalar (.vstr "A")), ("enc", Tree.scalar (.vstr "E"))]])])]
        "" "" none = .ok (t', false)) ↔
      (usableIn [("kms", Tree.arr [Tree.map
          [("arn", Tree.scalar (.vstr "A")), ("enc", Tree.scalar (.vstr "E"))]])]
          "kms" "arn" = true ∨
       usableIn [("kms", Tree.arr [Tree.map
          [("arn", Tree.scalar (.vstr "A")), ("enc", Tree.scalar (.vstr "E"))]])]
          "pgp" "fp" = true)) ∧
    (usableIn [("kms", Tree.arr [Tree.map
        [("arn", Tree.scalar (.vstr "A")), ("enc", Tree.scalar (.vstr "E"))]])]
        "kms" "arn" = false →
     usableIn [("kms", Tree.arr [Tree.map
        [("arn", Tree.scalar (.vstr "A")), ("enc", Tree.scalar (.vstr "E"))]])]
        "pgp" "fp" = false →
     ("" : String) = "" → ("" : String) = "" →
     ((none : Option (String × String)) = none ∨
       (none : Option (String × String)) = some ("", "")) →
     verify_or_create_sops_branch
        [("sops", Tree.map [("kms", Tree.arr [Tree.map
          [("arn", Tree.scalar (.vstr "A")), ("enc", Tree.scalar (.vstr "E"))]])])]
        "" "" none = .error (.exit 111)) :=
  C6_verify_branch
    [("sops", Tree.map [("kms", Tree.arr [Tree.map
      [("arn", Tree.scalar (.vstr "A")), ("enc", Tree.scalar (.vstr "E"))]])])]
    [("kms", Tree.arr [Tree.map
      [("arn", Tree.scalar (.vstr "A")), ("enc", Tree.scalar (.vstr "E"))]])]
    "" "" none rfl
    (by
      intro l hl e he
      injection hl with h
      injection h with h
      cases h
      cases he with
      | head => rfl
      | tail _ h2 => cases h2)
    (fun l hl => Option.noConfusion hl)

/-! ## The nonexistent-file gate and get_key (C7) -/

/-- Source lines 213–222: the checks `main` performs right after
`initialize_tree` when the target file does not exist.  The add/remove
flags are the argparse strings (`""` for absent); `.ok ()` is `main`
falling through to the `INFO: ... doesn't exist, creating it.` message
and the mode dispatch. -/
def mainGate (existing : Bool) (addKms addPgp rmKms rmPgp : String)
    (encM decM : Bool) : Except SopsError Unit :=
  if !existing then
    if ¬ addKms = "" ∨ ¬ addPgp = "" ∨ ¬ rmKms = "" ∨ ¬ rmPgp = "" then
      .error (.exit 49)
    else if encM || decM then .error (.exit 100)
    else .ok ()
  else .ok ()

/-- The entry loop of `get_key_from_kms` (source lines 1050–1080).
`aws e` abstracts the whole per-entry AWS interaction (session/role
acquisition and `kms.decrypt`): `some k` when it yields plaintext `k`,
`none` when any step fails (the error is recorded and the loop
continues).  A falsy entry or one without `enc` is skipped; a missing or
empty `arn` is skipped with a warning; a truthy non-mapping entry (or a
present non-string `arn`) raises in Python. -/
def scanKmsEntries (aws : Branch → Option Bytes) :
    List Tree → Except SopsError (Option Bytes)
  | [] => .ok none
  | e :: rest =>
    match e with
    | .map b =>
      if b.isEmpty then scanKmsEntries aws rest
      else match lookupB b "enc" with
        | none => scanKmsEntries aws rest
        | some _ =>
          match lookupB b "arn" with
          | none => scanKmsEntries aws rest
          | some (.scalar (.vstr a)) =>
            if a = "" then scanKmsEntries aws rest
            else match aws b with
              | some k => .ok (some k)
              | none => scanKmsEntries aws rest
          | some _ => .error .pyExn
    | t => if t.truthy then .error .pyExn else scanKmsEntries aws rest

/-- The entry loop of `get_key_from_pgp` (source lines 1155–1171).
`gpg enc` abstracts the `gpg -d` subprocess on the entry's `enc` string;
all failures inside the `try` (including a non-string `enc`) continue
the loop, and a key of length other than 32 is rejected. -/
def scanPgpEntries (gpg : String → Option Bytes) :
    List Tree → Except SopsError (Option Bytes)
  | [] => .ok none
  | e :: rest =>
    match e with
    | .map b =>
      if b.isEmpty then scanPgpEntries gpg rest
      else match lookupB b "enc" with
        | none => scanPgpEntries gpg rest
        | some (.scalar (.vstr enc)) =>
          match gpg enc with
          | some k =>
            if k.length = 32 then .ok (some k) else scanPgpEntries gpg rest
          | none => scanPgpEntries gpg rest
        | some _ => scanPgpEntries gpg rest
    | t => if t.truthy then .error .pyExn else scanPgpEntries gpg rest

/-- `get_key_from_kms` (source lines 1042–1080).  A missing `sops` or
`kms` key is the caught `KeyError` (→ `None`); a present non-list `kms`
value or non-mapping `sops` is iterated/indexed and raises in Python on
its first use. -/
def get_key_from_kms (aws : Branch → Option Bytes) (tree : Branch) :
    Except SopsError (Option Bytes) :=
  match lookupB tree "sops" with
  | none => .ok none
  | some (.map sm) =>
    match lookupB sm "kms" with
    | none => .ok none
    | some (.arr l) => scanKmsEntries aws l
    | some _ => .error .pyExn
  | some _ => .error .pyExn

/-- `get_key_from_pgp` (source lines 1148–1172). -/
def get_key_from_pgp (gpg : String → Option Bytes) (tree : Branch) :
    Except SopsError (Option Bytes) :=
  match lookupB tree "sops" with
  | none => .ok none
  | some (.map sm) =>
    match lookupB sm "pgp" with
    | none => .ok none
    | some (.arr l) => scanPgpEntries gpg l
    | some _ => .error .pyExn
  | some _ => .error .pyExn

def wrappedHasEnc (b : Branch) : Bool :=
  match lookupB b "enc" with
  | some (.scalar v) => decide (¬ v = .vstr "")
  | some _ => true
  | none => false

/-- The key-wrapping loop of `get_key`'s need-key branch (source lines
1003–1026, one loop for each backend; `wrap` abstracts
`encrypt_key_with_kms`/`encrypt_key_with_pgp`, `None` meaning failure,
which panics with the default exit code 1).  On success the wrap
functions mutate the iterated entry *in place* and return it, so the
read position `p` already holds the wrapped entry; the explicit
assignment `tree['sops'][...][i] = updated` then stores the same entry
at the manual index `i`, which counts only truthy entries and so lags
behind `p` across falsy ones.  All failure paths of the wrap functions
return `None` before any mutation.  `acc` is the list being written
(reads are taken from the original `rest`: every write lands at an
index at or below the read position, and the list entries are distinct
objects initially, so Python's iterator never observes a write). -/
def needLoop (wrap : Bytes → Branch → Option Branch) (key : Bytes) :
    List Tree → Nat → Int → List Tree → Except SopsError (List Tree)
  | [], _, _, acc => .ok acc
  | e :: rest, p, i, acc =>
    if e.truthy = false then needLoop wrap key rest (p + 1) i acc
    else
      match e with
      | .map b =>
        match wrap key b with
        | none => .error (.exit 1)
        | some updated =>
          let acc1 := acc.set p (.map updated)
          let acc2 := if wrappedHasEnc updated then
              acc1.set (i + 1).toNat (.map updated)
            else acc1
          needLoop wrap key rest (p + 1) (i + 1) acc2
      | _ => .error .pyExn

/-- `get_key` (source lines 990–1039).  `newKey` is `os.urandom(32)`;
`wrapKms`/`wrapPgp`/`aws`/`gpg` abstract the master-key backends.  With
`need`, a fresh key is wrapped into every truthy `kms`/`pgp` entry;
otherwise the key is unwrapped from the document, and exhausting both
backends panics with exit code 128. -/
def needStage (wrap : Bytes → Branch → Option Branch) (key : Bytes)
    (sm : Branch) (field : String) : Except SopsError Branch :=
  match lookupB sm field with
  | none => .ok sm
  | some (.arr l) =>
    (match needLoop wrap key l 0 (-1) l with
      | .error e => .error e
      | .ok l' => .ok (setKeyB sm field (.arr l')))
  | some _ => .error .pyExn

def get_key (wrapKms wrapPgp : Bytes → Branch → Option Branch)
    (aws : Branch → Option Bytes) (gpg : String → Option Bytes)
    (newKey : Bytes) (tree : Branch) (need : Bool) :
    Except SopsError (Bytes × Branch) :=
  if need then
    match lookupB tree "sops" with
    | some (.map sm) =>
      match needStage wrapKms newKey sm "kms" with
      | .error e => .error e
      | .ok sm1 =>
        match needStage wrapPgp newKey sm1 "pgp" with
        | .error e => .error e
        | .ok sm2 => .ok (newKey, setKeyB tree "sops" (.map sm2))
    | _ => .error .pyExn
  else
    match get_key_from_kms aws tree with
    | .error e => .error e
    | .ok (some k) => .ok (k, tree)
    | .ok none =>
      match get_key_from_pgp gpg tree with
      | .error e => .error e
      | .ok (some k) => .ok (k, tree)
      | .ok none => .error (.exit 128)

/-- An entry with no wrapped data key: a mapping without `enc`, or a
falsy entry (both are skipped by the unwrap scans).  This is the shape
`parse_kms_arn`/`parse_pgp_fp` produce on a fresh file. -/
def encFreeEntry : Tree → Bool
  | .map b => (lookupB b "enc").isNone
  | t => !t.truthy

/-- The `sops[field]` value is absent or a list of enc-free entries. -/
def encFreeField (sm : Branch) (field : String) : Bool :=
  match lookupB sm field with
  | none => true
  | some (.arr l) => l.all encFreeEntry
  | some _ => false

theorem scanKmsEntries_encFree (aws : Branch → Option Bytes) (l : List Tree)
    (h : l.all encFreeEntry = true) : scanKmsEntries aws l = .ok none := by
  induction l with
  | nil => rfl
  | cons e rest ih =>
    rw [List.all_cons, Bool.and_eq_true] at h
    cases e with
    | map b =>
      rw [scanKmsEntries]
      have h1 := h.1
      simp only [encFreeEntry, Option.isNone_iff_eq_none] at h1
      by_cases hb : b.isEmpty = true
      · rw [if_pos hb]; exact ih h.2
      · rw [if_neg hb, h1]; exact ih h.2
    | scalar v =>
      have h1 : (Tree.scalar v).truthy = false := by
        have h2 := h.1
        simp only [encFreeEntry, Bool.not_eq_true'] at h2
        exact h2
      show (if (Tree.scalar v).truthy = true then Except.error SopsError.pyExn
        else scanKmsEntries aws rest) = Except.ok none
      rw [if_neg (by simp [h1])]
      exact ih h.2
    | arr a =>
      have h1 : (Tree.arr a).truthy = false := by
        have h2 := h.1
        simp only [encFreeEntry, Bool.not_eq_true'] at h2
        exact h2
      show (if (Tree.arr a).truthy = true then Except.error SopsError.pyExn
        else scanKmsEntries aws rest) = Except.ok none
      rw [if_neg (by simp [h1])]
      exact ih h.2

theorem scanPgpEntries_encFree (gpg : String → Option Bytes) (l : List Tree)
    (h : l.all encFreeEntry = true) : scanPgpEntries gpg l = .ok none := by
  induction l with
  | nil => rfl
  | cons e rest ih =>
    rw [List.all_cons, Bool.and_eq_true] at h
    cases e with
    | map b =>
      rw [scanPgpEntries]
      have h1 := h.1
      simp only [encFreeEntry, Option.isNone_iff_eq_none] at h1
      by_cases hb : b.isEmpty = true
      · rw [if_pos hb]; exact ih h.2
      · rw [if_neg hb, h1]; exact ih h.2
    | scalar v =>
      have h1 : (Tree.scalar v).truthy = false := by
        have h2 := h.1
        simp only [encFreeEntry, Bool.not_eq_true'] at h2
        exact h2
      show (if (Tree.scalar v).truthy = true then Except.error SopsError.pyExn
        else scanPgpEntries gpg rest) = Except.ok none
      rw [if_neg (by simp [h1])]
      exact ih h.2
    | arr a =>
      have h1 : (Tree.arr a).truthy = false := by
        have h2 := h.1
        simp only [encFreeEntry, Bool.not_eq_true'] at h2
        exact h2
      show (if (Tree.arr a).truthy = true then Except.error SopsError.pyExn
        else scanPgpEntries gpg rest) = Except.ok none
      rw [if_neg (by simp [h1])]
      exact ih h.2

theorem needLoop_ok (wrap : Bytes → Branch → Option Branch) (key : Bytes)
    (hw : ∀ b, (wrap key b).isSome = true) (l : List Tree) :
    ∀ (p : Nat) (i : Int) (acc : List Tree), l.all encFreeEntry = true →
    ∃ l', needLoop wrap key l p i acc = .ok l' := by
  induction l with
  | nil => intro p i acc _; exact ⟨acc, rfl⟩
  | cons e rest ih =>
    intro p i acc h
    rw [List.all_cons, Bool.and_eq_true] at h
    cases e with
    | map b =>
      rw [needLoop]
      by_cases ht : (Tree.map b).truthy = false
      · rw [if_pos ht]; exact ih (p + 1) i acc h.2
      · rw [if_neg ht]
        rcases Option.isSome_iff_exists.mp (hw b) with ⟨u, hu⟩
        rw [hu]
        exact ih (p + 1) (i + 1) _ h.2
    | scalar v =>
      have h1 : (Tree.scalar v).truthy = false := by
        have h2 := h.1
        simp only [encFreeEntry, Bool.not_eq_true'] at h2
        exact h2
      show ∃ l', (if (Tree.scalar v).truthy = false then
          needLoop wrap key rest (p + 1) i acc
        else Except.error SopsError.pyExn) = Except.ok l'
      rw [if_pos h1]
      exact ih (p + 1) i acc h.2
    | arr a =>
      have h1 : (Tree.arr a).truthy = false := by
        have h2 := h.1
        simp only [encFreeEntry, Bool.not_eq_true'] at h2
        exact h2
      show ∃ l', (if (Tree.arr a).truthy = false then
          needLoop wrap key rest (p + 1) i acc
        else Except.error SopsError.pyExn) = Except.ok l'
      rw [if_pos h1]
      exact ih (p + 1) i acc h.2

theorem get_key_from_kms_encFree (aws : Branch → Option Bytes) (tree sm : Branch)
    (hsops : lookupB tree "sops" = some (.map sm))
    (hkf : encFreeField sm "kms" = true) :
    get_key_from_kms aws tree = .ok none := by
  unfold get_key_from_kms
  rw [hsops]
  show (match lookupB sm "kms" with
    | none => Except.ok none
    | some (.arr l) => scanKmsEntries aws l
    | some _ => (.error .pyExn : Except SopsError (Option Bytes))) = .ok none
  unfold encFreeField at hkf
  cases hk2 : lookupB sm "kms" with
  | none => rfl
  | some t =>
    rw [hk2] at hkf
    cases t with
    | scalar v => exact absurd hkf (by simp)
    | map m => exact absurd hkf (by simp)
    | arr l => exact scanKmsEntries_encFree aws l hkf

theorem get_key_from_pgp_encFree (gpg : String → Option Bytes) (tree sm : Branch)
    (hsops : lookupB tree "sops" = some (.map sm))
    (hpf : encFreeField sm "pgp" = true) :
    get_key_from_pgp gpg tree = .ok none := by
  unfold get_key_from_pgp
  rw [hsops]
  show (match lookupB sm "pgp" with
    | none => Except.ok none
    | some (.arr l) => scanPgpEntries gpg l
    | some _ => (.error .pyExn : Except SopsError (Option Bytes))) = .ok none
  unfold encFreeField at hpf
  cases hp2 : lookupB sm "pgp" with
  | none => rfl
  | some t =>
    rw [hp2] at hpf
    cases t with
    | scalar v => exact absurd hpf (by simp)
    | map m => exact absurd hpf (by simp)
    | arr l => exact scanPgpEntries_encFree gpg l hpf

/-- `C7`: when the target file does not exist, any add/remove master-key
flag exits 49 and encrypt/decrypt mode exits 100 (source lines 213–222);
rotate mode passes that gate but its first `get_key` call on the freshly
scaffolded tree — whose `kms`/`pgp` entries carry no `enc` yet — panics
with exit code 128; edit mode passes the gate and its
`get_key(need_key=True)` call succeeds (the message and template
scaffolding precede it), so only edit proceeds. -/
theorem C7_nonexistent_file_modes
    (addKms addPgp rmKms rmPgp : String) (encM decM : Bool)
    (wrapKms wrapPgp : Bytes → Branch → Option Branch)
    (aws : Branch → Option Bytes) (gpg : String → Option Bytes)
    (newKey : Bytes) (tree sm : Branch)
    (hsops : lookupB tree "sops" = some (.map sm))
    (hkf : encFreeField sm "kms" = true)
    (hpf : encFreeField sm "pgp" = true)
    (hwk : ∀ b, (wrapKms newKey b).isSome = true)
    (hwp : ∀ b, (wrapPgp newKey b).isSome = true) :
    ((¬ addKms = "" ∨ ¬ addPgp = "" ∨ ¬ rmKms = "" ∨ ¬ rmPgp = "") →
      mainGate false addKms addPgp rmKms rmPgp encM decM = .error (.exit 49)) ∧
    (addKms = "" → addPgp = "" → rmKms = "" → rmPgp = "" →
      (encM || decM) = true →
      mainGate false addKms addPgp rmKms rmPgp encM decM = .error (.exit 100)) ∧
    (addKms = "" → addPgp = "" → rmKms = "" → rmPgp = "" →
      encM = false → decM = false →
      mainGate false addKms addPgp rmKms rmPgp encM decM = .ok ()) ∧
    (get_key wrapKms wrapPgp aws gpg newKey tree false = .error (.exit 128)) ∧
    (∃ tree', get_key wrapKms wrapPgp aws gpg newKey tree true =
      .ok (newKey, tree')) := by
  refine ⟨?_, ?_, ?_, ?_, ?_⟩
  · intro h
    unfold mainGate
    rw [if_pos (by decide), if_pos h]
  · intro h1 h2 h3 h4 h5
    subst h1; subst h2; subst h3; subst h4
    unfold mainGate
    rw [if_pos (by decide), if_neg (by simp), if_pos h5]
  · intro h1 h2 h3 h4 h5 h6
    subst h1; subst h2; subst h3; subst h4; subst h5; subst h6
    unfold mainGate
    rw [if_pos (by decide), if_neg (by simp), if_neg (by decide)]
  · unfold get_key
    rw [if_neg (by decide)]
    rw [get_key_from_kms_encFree aws tree sm hsops hkf]
    simp only []
    rw [get_key_from_pgp_encFree gpg tree sm hsops hpf]
  · have hstep : ∀ sm1 : Branch, lookupB sm1 "pgp" = lookupB sm "pgp" →
        ∃ sm2, needStage wrapPgp newKey sm1 "pgp" = .ok sm2 := by
      intro sm1 hsame
      unfold needStage
      rw [hsame]
      unfold encFreeField at hpf
      cases hp2 : lookupB sm "pgp" with
      | none => exact ⟨sm1, rfl⟩
      | some t =>
        rw [hp2] at hpf
        cases t with
        | scalar v => exact absurd hpf (by simp)
        | map m => exact absurd hpf (by simp)
        | arr l =>
          rcases needLoop_ok wrapPgp newKey hwp l 0 (-1) l hpf with ⟨l', hl'⟩
          show ∃ sm2, (match needLoop wrapPgp newKey l 0 (-1) l with
            | Except.error e => Except.error e
            | Except.ok l2 => Except.ok (setKeyB sm1 "pgp" (Tree.arr l2))) =
            Except.ok sm2
          rw [hl']
          exact ⟨setKeyB sm1 "pgp" (.arr l'), rfl⟩
    have hstepk : ∃ sm1, needStage wrapKms newKey sm "kms" = .ok sm1 ∧
        lookupB sm1 "pgp" = lookupB sm "pgp" := by
      unfold needStage
      unfold encFreeField at hkf
      cases hk2 : lookupB sm "kms" with
      | none => exact ⟨sm, rfl, rfl⟩
      | some t =>
        rw [hk2] at hkf
        cases t with
        | scalar v => exact absurd hkf (by simp)
        | map m => exact absurd hkf (by simp)
        | arr l =>
          rcases needLoop_ok wrapKms newKey hwk l 0 (-1) l hkf with ⟨l', hl'⟩
          show ∃ sm1, (match needLoop wrapKms newKey l 0 (-1) l with
            | Except.error e => Except.error e
            | Except.ok l2 => Except.ok (setKeyB sm "kms" (Tree.arr l2))) =
            Except.ok sm1 ∧ lookupB sm1 "pgp" = lookupB sm "pgp"
          rw [hl']
          exact ⟨setKeyB sm "kms" (.arr l'), rfl,
            lookupB_setKeyB_ne sm "kms" "pgp" (.arr l') (by decide)⟩
    rcases hstepk with ⟨sm1, hsm1, hsame⟩
    rcases hstep sm1 hsame with ⟨sm2, hsm2⟩
    unfold get_key
    rw [if_pos rfl, hsops]
    simp only [hsm1, hsm2]
    exact ⟨setKeyB tree "sops" (.map sm2), rfl⟩

/-- `C7` at concrete inputs: the fresh-file tree scaffolded with one
enc-free KMS entry, no flags, edit mode. -/
theorem C7_nonexistent_file_modes_witness :
    ((¬ ("" : String) = "" ∨ ¬ ("" : String) = "" ∨ ¬ ("" : String) = "" ∨
        ¬ ("" : String) = "") →
      mainGate false "" "" "" "" false false = .error (.exit 49)) ∧
    (("" : String) = "" → ("" : String) = "" → ("" : String) = "" →
      ("" : String) = "" → (false || false) = true →
      mainGate false "" "" "" "" false false = .error (.exit 100)) ∧
    (("" : String) = "" → ("" : String) = "" → ("" : String) = "" →
      ("" : String) = "" → false = false → false = false →
      mainGate false "" "" "" "" false false = .ok ()) ∧
    (get_key (fun _ b => some (setKeyB b "enc" (.scalar (.vstr "E"))))
      (fun _ b => some b) (fun _ => none) (fun _ => none) ['K']
      [("sops", Tree.map [("kms", Tree.arr
        [Tree.map [("arn", Tree.scalar (.vstr "A"))]])])] false =
      .error (.exit 128)) ∧
    (∃ tree', get_key (fun _ b => some (setKeyB b "enc" (.scalar (.vstr "E"))))
      (fun _ b => some b) (fun _ => none) (fun _ => none) ['K']
      [("sops", Tree.map [("kms", Tree.arr
        [Tree.map [("arn", Tree.scalar (.vstr "A"))]])])] true =
      .ok (['K'], tree')) :=
  C7_nonexistent_file_modes "" "" "" "" false false
    (fun _ b => some (setKeyB b "enc" (.scalar (.vstr "E")))) (fun _ b => some b)
    (fun _ => none) (fun _ => none) ['K']
    [("sops", Tree.map [("kms", Tree.arr
      [Tree.map [("arn", Tree.scalar (.vstr "A"))]])])]
    [("kms", Tree.arr [Tree.map [("arn", Tree.scalar (.vstr "A"))]])]
    rfl rfl rfl (fun _ => rfl) (fun _ => rfl)

/-! ## Adding and removing master keys (C8) -/

/-- The `arn` field that `parse_kms_arn` gives one comma-separated
component (the part before a `+arn:aws:iam::` role suffix at a positive
offset). -/
def parsedArn (arn0 : List Char) : String :=
  let arn := stripSpaces arn0
  let rolepos := findSub "+arn:aws:iam::".data arn
  if 0 < rolepos then String.mk (arn.take rolepos.toNat) else String.mk arn

/-- One entry of `parse_pgp_fp`'s output list. -/
def pgpEntryOfFp (fp : List Char) : Tree :=
  .map [("fp", .scalar (.vstr (String.mk (stripSpaces fp))))]

/-- The `shouldadd` scan of `add_new_master_keys` (source lines 665–673
and 686–694): a falsy entry is skipped; an existing entry whose `idf`
field equals the new entry's stops the scan; a missing `idf` field on a
truthy entry raises `KeyError` in Python; a non-scalar field compares
unequal. -/
def addShould (idf : String) (v : String) : List Tree → Except SopsError Bool
  | [] => .ok true
  | e :: rest =>
    match e with
    | .map b =>
      if b.isEmpty then addShould idf v rest
      else match lookupB b idf with
        | none => .error .pyExn
        | some (.scalar w) =>
          if w = .vstr v then .ok false else addShould idf v rest
        | some _ => addShould idf v rest
    | t => if t.truthy then .error .pyExn else addShould idf v rest

/-- The per-new-entry loop of `add_new_master_keys` (source lines
660–674): when the list is absent it is created as `[newentry]`,
otherwise the entry is appended unless its `arn`/`fp` is already
present. -/
def addLoop (field idf : String) (mkEntry : List Char → Tree)
    (mkV : List Char → String) : List (List Char) → Branch →
    Except SopsError Branch
  | [], sm => .ok sm
  | part :: rest, sm =>
    match lookupB sm field with
    | none => addLoop field idf mkEntry mkV rest
        (setKeyB sm field (.arr [mkEntry part]))
    | some (.arr l) =>
      (match addShould idf (mkV part) l with
        | .error e => .error e
        | .ok true => addLoop field idf mkEntry mkV rest
            (setKeyB sm field (.arr (l ++ [mkEntry part])))
        | .ok false => addLoop field idf mkEntry mkV rest sm)
    | some _ => .error .pyExn

/-- One backend block of `add_new_master_keys`: skipped for an absent
(falsy) string, otherwise the per-entry loop over the parsed
comma-separated components (accessing `tree['sops']`, which must be a
mapping). -/
def addStage (field idf : String) (mkEntry : List Char → Tree)
    (mkV : List Char → String) (s : String) (tree : Branch) :
    Except SopsError Branch :=
  if s = "" then .ok tree
  else match lookupB tree "sops" with
    | some (.map sm) =>
      (match addLoop field idf mkEntry mkV (splitOnChar ',' s.data) sm with
        | .error e => .error e
        | .ok sm1 => .ok (setKeyB tree "sops" (.map sm1)))
    | _ => .error .pyExn

/-- `add_new_master_keys` (source lines 654–696).  An empty string means
the argparse `None`. -/
def add_new_master_keys (tree : Branch) (newKms newPgp : String) :
    Except SopsError Branch :=
  match addStage "kms" "arn" kmsEntryOfArn (fun p => parsedArn p) newKms tree with
  | .error e => .error e
  | .ok tree1 =>
    addStage "pgp" "fp" pgpEntryOfFp (fun p => String.mk (stripSpaces p))
      newPgp tree1

/-- Some truthy existing entry's `idf` field equals `v` (the condition
under which the `shouldadd` scan vetoes an append). -/
def presentIn (idf v : String) : List Tree → Bool
  | [] => false
  | e :: rest =>
    (match e with
      | Tree.map b => !b.isEmpty &&
          (match lookupB b idf with
            | some (.scalar w) => decide (w = .vstr v)
            | _ => false)
      | _ => false) || presentIn idf v rest

/-- The dedup merge that `add_new_master_keys`'s loop implements,
written from the spec's words: process the parsed components left to
right, skip one exactly when its `arn`/`fp` is already present among
the truthy entries, otherwise append its entry at the end. -/
def addDedup (idf : String) (mkEntry : List Char → Tree)
    (mkV : List Char → String) : List (List Char) → List Tree → List Tree
  | [], l => l
  | p :: ps, l =>
    if presentIn idf (mkV p) l then addDedup idf mkEntry mkV ps l
    else addDedup idf mkEntry mkV ps (l ++ [mkEntry p])

theorem setKeyB_nil (k : String) (v : Tree) :
    setKeyB ([] : Branch) k v = [(k, v)] := rfl

theorem setKeyB_cons (k1 : String) (v1 : Tree) (rest : Branch) (k : String)
    (v : Tree) :
    setKeyB ((k1, v1) :: rest) k v =
      if k1 = k then (k, v) :: rest else (k1, v1) :: setKeyB rest k v := rfl

theorem setKeyB_lookup_self (sm : Branch) (k : String) (v : Tree)
    (h : lookupB sm k = some v) : setKeyB sm k v = sm := by
  induction sm with
  | nil => exact absurd h (by simp [lookupB])
  | cons e rest ih =>
    rcases e with ⟨k1, v1⟩
    rw [lookupB] at h
    by_cases hk : k1 = k
    · rw [if_pos hk] at h
      injection h with h2
      rw [setKeyB_cons, if_pos hk, ← hk, ← h2]
    · rw [if_neg hk] at h
      rw [setKeyB_cons, if_neg hk, ih h]

theorem setKeyB_setKeyB (sm : Branch) (k : String) (v1 v2 : Tree) :
    setKeyB (setKeyB sm k v1) k v2 = setKeyB sm k v2 := by
  induction sm with
  | nil =>
    rw [setKeyB_nil, setKeyB_cons, if_pos rfl, setKeyB_nil]
  | cons e rest ih =>
    rcases e with ⟨k1, w⟩
    by_cases hk : k1 = k
    · rw [setKeyB_cons, if_pos hk, setKeyB_cons, if_pos rfl,
        setKeyB_cons, if_pos hk]
    · rw [setKeyB_cons, if_neg hk, setKeyB_cons, if_neg hk,
        setKeyB_cons, if_neg hk, ih]

/-- On entries that Python scans without raising — mappings that are
falsy or carry the `idf` field — `shouldadd` is exactly the negation of
`presentIn`. -/
theorem addShould_spec (idf v : String) (l : List Tree)
    (hsh : ∀ e ∈ l, ∃ b, e = Tree.map b ∧
      (b.isEmpty = true ∨ (lookupB b idf).isSome = true)) :
    addShould idf v l = .ok (!presentIn idf v l) := by
  induction l with
  | nil => rfl
  | cons e rest ih =>
    rcases hsh e (List.mem_cons_self e rest) with ⟨b, hb, hsome⟩
    subst hb
    have hsh2 : ∀ e ∈ rest, ∃ b, e = Tree.map b ∧
        (b.isEmpty = true ∨ (lookupB b idf).isSome = true) :=
      fun e2 he2 => hsh e2 (List.mem_cons_of_mem _ he2)
    rw [addShould, presentIn]
    by_cases hbe : b.isEmpty = true
    · rw [if_pos hbe, hbe]
      simp only [Bool.not_true, Bool.false_and, Bool.false_or]
      exact ih hsh2
    · have hbe' : b.isEmpty = false := by rwa [Bool.not_eq_true] at hbe
      rw [if_neg hbe, hbe']
      rcases hsome with hsome | hsome
      · exact absurd hsome hbe
      · rcases Option.isSome_iff_exists.mp hsome with ⟨t, ht⟩
        rw [ht]
        simp only [Bool.not_false, Bool.true_and]
        cases t with
        | scalar w =>
          show (if w = PyVal.vstr v then Except.ok false else addShould idf v rest) =
            Except.ok (!(decide (w = PyVal.vstr v) || presentIn idf v rest))
          by_cases hw : w = .vstr v
          · rw [if_pos hw, hw]
            simp
          · rw [if_neg hw]
            have hd : decide (w = PyVal.vstr v) = false := decide_eq_false hw
            rw [hd]
            simp only [Bool.false_or]
            exact ih hsh2
        | map m =>
          show addShould idf v rest = .ok (!(false || presentIn idf v rest))
          simp only [Bool.false_or]
          exact ih hsh2
        | arr a =>
          show addShould idf v rest = .ok (!(false || presentIn idf v rest))
          simp only [Bool.false_or]
          exact ih hsh2

theorem kmsEntryOfArn_shape (p : List Char) :
    ∃ b, kmsEntryOfArn p = Tree.map b ∧ b.isEmpty = false ∧
      lookupB b "arn" = some (.scalar (.vstr (parsedArn p))) := by
  have hk : kmsEntryOfArn p = (if 0 < findSub ("+arn:aws:iam::".data) (stripSpaces p)
    then Tree.map [("arn", Tree.scalar (.vstr (String.mk ((stripSpaces p).take
        (findSub ("+arn:aws:iam::".data) (stripSpaces p)).toNat)))),
      ("role", Tree.scalar (.vstr (String.mk ((stripSpaces p).drop
        ((findSub ("+arn:aws:iam::".data) (stripSpaces p)).toNat + 1)))))]
    else Tree.map [("arn", Tree.scalar (.vstr (String.mk (stripSpaces p))))]) := rfl
  have hv : parsedArn p = (if 0 < findSub ("+arn:aws:iam::".data) (stripSpaces p)
    then String.mk ((stripSpaces p).take
      (findSub ("+arn:aws:iam::".data) (stripSpaces p)).toNat)
    else String.mk (stripSpaces p)) := rfl
  rw [hk, hv]
  by_cases h : 0 < findSub ("+arn:aws:iam::".data) (stripSpaces p)
  · rw [if_pos h, if_pos h]
    exact ⟨_, rfl, rfl, rfl⟩
  · rw [if_neg h, if_neg h]
    exact ⟨_, rfl, rfl, rfl⟩

theorem pgpEntryOfFp_shape (p : List Char) :
    ∃ b, pgpEntryOfFp p = Tree.map b ∧ b.isEmpty = false ∧
      lookupB b "fp" = some (.scalar (.vstr (String.mk (stripSpaces p)))) :=
  ⟨_, rfl, rfl, rfl⟩

/-- The add loop is the dedup merge: over a present list of scannable
entries, each parsed component is appended at the end exactly when its
`arn`/`fp` is not already present among the truthy entries. -/
theorem addLoop_dedup (field idf : String) (mkEntry : List Char → Tree)
    (mkV : List Char → String)
    (hmk : ∀ p, ∃ b, mkEntry p = Tree.map b ∧ b.isEmpty = false ∧
      lookupB b idf = some (.scalar (.vstr (mkV p)))) :
    ∀ (parts : List (List Char)) (sm : Branch) (l : List Tree),
    lookupB sm field = some (.arr l) →
    (∀ e ∈ l, ∃ b, e = Tree.map b ∧
      (b.isEmpty = true ∨ (lookupB b idf).isSome = true)) →
    addLoop field idf mkEntry mkV parts sm =
      .ok (setKeyB sm field (.arr (addDedup idf mkEntry mkV parts l))) := by
  intro parts
  induction parts with
  | nil =>
    intro sm l hl hsh
    rw [addLoop, addDedup, setKeyB_lookup_self sm field (.arr l) hl]
  | cons part ps ih =>
    intro sm l hl hsh
    rw [addLoop, hl]
    show (match addShould idf (mkV part) l with
      | Except.error e => Except.error e
      | Except.ok true => addLoop field idf mkEntry mkV ps
          (setKeyB sm field (.arr (l ++ [mkEntry part])))
      | Except.ok false => addLoop field idf mkEntry mkV ps sm) = _
    rw [addShould_spec idf (mkV part) l hsh, addDedup]
    by_cases hpres : presentIn idf (mkV part) l = true
    · rw [if_pos hpres, hpres]
      show addLoop field idf mkEntry mkV ps sm = _
      exact ih sm l hl hsh
    · have hpres' : presentIn idf (mkV part) l = false := by
        rwa [Bool.not_eq_true] at hpres
      rw [if_neg hpres, hpres']
      show addLoop field idf mkEntry mkV ps
          (setKeyB sm field (.arr (l ++ [mkEntry part]))) = _
      rcases hmk part with ⟨b2, hb2, hbe2, hbl2⟩
      have hsh2 : ∀ e ∈ l ++ [mkEntry part], ∃ b, e = Tree.map b ∧
          (b.isEmpty = true ∨ (lookupB b idf).isSome = true) := by
        intro e he
        rcases List.mem_append.mp he with he | he
        · exact hsh e he
        · rw [List.mem_singleton] at he
          subst he
          exact ⟨b2, hb2, Or.inr (by rw [hbl2]; rfl)⟩
      rw [ih (setKeyB sm field (.arr (l ++ [mkEntry part]))) (l ++ [mkEntry part])
        (lookupB_setKeyB_self sm field _) hsh2, setKeyB_setKeyB]

theorem addStage_dedup (field idf : String) (mkEntry : List Char → Tree)
    (mkV : List Char → String) (s : String) (tree sm : Branch) (l : List Tree)
    (hmk : ∀ p, ∃ b, mkEntry p = Tree.map b ∧ b.isEmpty = false ∧
      lookupB b idf = some (.scalar (.vstr (mkV p))))
    (hne : ¬ s = "")
    (hsops : lookupB tree "sops" = some (.map sm))
    (hl : lookupB sm field = some (.arr l))
    (hsh : ∀ e ∈ l, ∃ b, e = Tree.map b ∧
      (b.isEmpty = true ∨ (lookupB b idf).isSome = true)) :
    addStage field idf mkEntry mkV s tree =
      .ok (setKeyB tree "sops" (.map (setKeyB sm field
        (.arr (addDedup idf mkEntry mkV (splitOnChar ',' s.data) l))))) := by
  unfold addStage
  rw [if_neg hne, hsops]
  show (match addLoop field idf mkEntry mkV (splitOnChar ',' s.data) sm with
    | Except.error e => Except.error e
    | Except.ok sm1 => Except.ok (setKeyB tree "sops" (.map sm1))) = _
  rw [addLoop_dedup field idf mkEntry mkV hmk (splitOnChar ',' s.data) sm l hl hsh]

theorem eraseIdx_length_le (l : List Tree) (i : Nat) :
    (l.eraseIdx i).length ≤ l.length := by
  induction l generalizing i with
  | nil => simp [List.eraseIdx]
  | cons x xs ih =>
    cases i with
    | zero => simp [List.eraseIdx]
    | succ j =>
      rw [List.eraseIdx]
      simp only [List.length_cons]
      exact Nat.succ_le_succ (ih j)

/-- The inner loop of `remove_master_keys` for one parsed `rmentry`
(source lines 706–713 / 721–728), with Python's exact semantics: the
`for` iterator advances `p` over the *current* list (which `del`
rewrites mid-iteration, and whose length never grows); `i` is the manual
index that a falsy entry fails to advance (the `continue` skips
`i += 1`).  `fuel` only bounds the iteration count structurally: started
at the list's length it never runs out before `p` passes the end, so the
`fuel = 0` case is unreachable dead code. -/
def rmScan (idf v : String) : Nat → List Tree → Nat → Nat →
    Except SopsError (List Tree)
  | 0, L, _, _ => .ok L
  | fuel + 1, L, p, i =>
    if h : p < L.length then
      match L.get ⟨p, h⟩ with
      | .map b =>
        if b.isEmpty then rmScan idf v fuel L (p + 1) i
        else (match lookupB b idf with
          | none => .error .pyExn
          | some (.scalar w) =>
            if w = .vstr v then rmScan idf v fuel (L.eraseIdx i) (p + 1) (i + 1)
            else rmScan idf v fuel L (p + 1) (i + 1)
          | some _ => rmScan idf v fuel L (p + 1) (i + 1))
      | t => if t.truthy then .error .pyExn else rmScan idf v fuel L (p + 1) i
    else .ok L

/-- The outer loop of `remove_master_keys` over the parsed removal
entries. -/
def rmLoop (idf : String) (mkV : List Char → String) :
    List (List Char) → List Tree → Except SopsError (List Tree)
  | [], l => .ok l
  | part :: rest, l =>
    match rmScan idf (mkV part) l.length l 0 0 with
    | .error e => .error e
    | .ok l1 => rmLoop idf mkV rest l1

/-- `remove_master_keys` (source lines 699–729). -/
def remove_master_keys (tree : Branch) (rmKms rmPgp : String) :
    Except SopsError Branch :=
  match (if rmKms = "" then Except.ok tree
    else match lookupB tree "sops" with
      | some (.map sm) =>
        (match lookupB sm "kms" with
          | none => Except.ok tree
          | some (.arr l) =>
            (match rmLoop "arn" (fun p => parsedArn p)
                (splitOnChar ',' rmKms.data) l with
              | Except.error e => Except.error e
              | Except.ok l1 => Except.ok (setKeyB tree "sops"
                  (.map (setKeyB sm "kms" (.arr l1)))))
          | some _ => (Except.error .pyExn : Except SopsError Branch))
      | _ => (Except.error .pyExn : Except SopsError Branch)) with
  | .error e => .error e
  | .ok tree1 =>
    if rmPgp = "" then .ok tree1
    else match lookupB tree1 "sops" with
      | some (.map sm) =>
        (match lookupB sm "pgp" with
          | none => .ok tree1
          | some (.arr l) =>
            (match rmLoop "fp" (fun p => String.mk (stripSpaces p))
                (splitOnChar ',' rmPgp.data) l with
              | .error e => .error e
              | .ok l1 => .ok (setKeyB tree1 "sops"
                  (.map (setKeyB sm "pgp" (.arr l1)))))
          | some _ => .error .pyExn)
      | _ => .error .pyExn

set_option maxRecDepth 20000 in
/-- `C8`: adding master keys appends only entries whose `arn`/`fp` is
not already present among the truthy existing entries — over scannable
lists the add loop equals the dedup merge `addDedup`, which processes
the parsed components left to right, skipping one exactly when its
value is already present (`presentIn`) and otherwise appending its
entry at the end, so no duplicates are ever created — and the claim's
highlighted scenario holds: adding the KMS string `k1+arn:aws:iam::r1`
to a one-entry list appends a second entry with the role split out into
a `role` field; removing the same string by ARN restores the original
single-entry list; and re-adding it creates no duplicate (the list is
unchanged).  The removal half of the claim is refuted separately. -/
theorem C8_add_dedupe_and_role_split
    (tree sm : Branch) (lk lp : List Tree) (newKms newPgp : String)
    (hsops : lookupB tree "sops" = some (.map sm))
    (hkl : lookupB sm "kms" = some (.arr lk))
    (hpl : lookupB sm "pgp" = some (.arr lp))
    (hshk : ∀ e ∈ lk, ∃ b, e = Tree.map b ∧
      (b.isEmpty = true ∨ (lookupB b "arn").isSome = true))
    (hshp : ∀ e ∈ lp, ∃ b, e = Tree.map b ∧
      (b.isEmpty = true ∨ (lookupB b "fp").isSome = true))
    (hnk : ¬ newKms = "") (hnp : ¬ newPgp = "") :
    add_new_master_keys tree newKms "" =
      .ok (setKeyB tree "sops" (.map (setKeyB sm "kms" (.arr
        (addDedup "arn" kmsEntryOfArn (fun p => parsedArn p)
          (splitOnChar ',' newKms.data) lk))))) ∧
    add_new_master_keys tree "" newPgp =
      .ok (setKeyB tree "sops" (.map (setKeyB sm "pgp" (.arr
        (addDedup "fp" pgpEntryOfFp (fun p => String.mk (stripSpaces p))
          (splitOnChar ',' newPgp.data) lp))))) ∧
    add_new_master_keys
        [("sops", Tree.map [("kms", Tree.arr [Tree.map
          [("arn", Tree.scalar (.vstr "k0")), ("enc", Tree.scalar (.vstr "E"))]])])]
        "k1+arn:aws:iam::r1" "" =
      .ok [("sops", Tree.map [("kms", Tree.arr [Tree.map
          [("arn", Tree.scalar (.vstr "k0")), ("enc", Tree.scalar (.vstr "E"))],
        Tree.map [("arn", Tree.scalar (.vstr "k1")),
          ("role", Tree.scalar (.vstr "arn:aws:iam::r1"))]])])] ∧
    remove_master_keys
        [("sops", Tree.map [("kms", Tree.arr [Tree.map
          [("arn", Tree.scalar (.vstr "k0")), ("enc", Tree.scalar (.vstr "E"))],
        Tree.map [("arn", Tree.scalar (.vstr "k1")),
          ("role", Tree.scalar (.vstr "arn:aws:iam::r1"))]])])]
        "k1+arn:aws:iam::r1" "" =
      .ok [("sops", Tree.map [("kms", Tree.arr [Tree.map
          [("arn", Tree.scalar (.vstr "k0")),
            ("enc", Tree.scalar (.vstr "E"))]])])] ∧
    add_new_master_keys
        [("sops", Tree.map [("kms", Tree.arr [Tree.map
          [("arn", Tree.scalar (.vstr "k0")), ("enc", Tree.scalar (.vstr "E"))],
        Tree.map [("arn", Tree.scalar (.vstr "k1")),
          ("role", Tree.scalar (.vstr "arn:aws:iam::r1"))]])])]
        "k1+arn:aws:iam::r1" "" =
      .ok [("sops", Tree.map [("kms", Tree.arr [Tree.map
          [("arn", Tree.scalar (.vstr "k0")), ("enc", Tree.scalar (.vstr "E"))],
        Tree.map [("arn", Tree.scalar (.vstr "k1")),
          ("role", Tree.scalar (.vstr "arn:aws:iam::r1"))]])])] := by
  refine ⟨?_, ?_, rfl, rfl, rfl⟩
  · unfold add_new_master_keys
    rw [addStage_dedup "kms" "arn" kmsEntryOfArn (fun p => parsedArn p)
      newKms tree sm lk kmsEntryOfArn_shape hnk hsops hkl hshk]
    rfl
  · unfold add_new_master_keys
    show addStage "pgp" "fp" pgpEntryOfFp (fun p => String.mk (stripSpaces p))
      newPgp tree = _
    rw [addStage_dedup "pgp" "fp" pgpEntryOfFp (fun p => String.mk (stripSpaces p))
      newPgp tree sm lp pgpEntryOfFp_shape hnp hsops hpl hshp]

/-- `C8` at concrete inputs: a tree with one existing KMS entry and an
empty PGP list; a role-carrying KMS string and one fingerprint are
added. -/
theorem C8_add_dedupe_and_role_split_witness :
    (add_new_master_keys
        [("sops", Tree.map [("kms", Tree.arr [Tree.map
          [("arn", Tree.scalar (.vstr "k0")), ("enc", Tree.scalar (.vstr "E"))]]),
          ("pgp", Tree.arr [])])]
        "k1+arn:aws:iam::r1" "" =
      .ok (setKeyB
        [("sops", Tree.map [("kms", Tree.arr [Tree.map
          [("arn", Tree.scalar (.vstr "k0")), ("enc", Tree.scalar (.vstr "E"))]]),
          ("pgp", Tree.arr [])])]
        "sops" (.map (setKeyB
          [("kms", Tree.arr [Tree.map
            [("arn", Tree.scalar (.vstr "k0")), ("enc", Tree.scalar (.vstr "E"))]]),
            ("pgp", Tree.arr [])]
          "kms" (.arr (addDedup "arn" kmsEntryOfArn (fun p => parsedArn p)
            (splitOnChar ',' ("k1+arn:aws:iam::r1" : String).data)
            [Tree.map [("arn", Tree.scalar (.vstr "k0")),
              ("enc", Tree.scalar (.vstr "E"))]])))))) ∧
    (add_new_master_keys
        [("sops", Tree.map [("kms", Tree.arr [Tree.map
          [("arn", Tree.scalar (.vstr "k0")), ("enc", Tree.scalar (.vstr "E"))]]),
          ("pgp", Tree.arr [])])]
        "" "f1" =
      .ok (setKeyB
        [("sops", Tree.map [("kms", Tree.arr [Tree.map
          [("arn", Tree.scalar (.vstr "k0")), ("enc", Tree.scalar (.vstr "E"))]]),
          ("pgp", Tree.arr [])])]
        "sops" (.map (setKeyB
          [("kms", Tree.arr [Tree.map
            [("arn", Tree.scalar (.vstr "k0")), ("enc", Tree.scalar (.vstr "E"))]]),
            ("pgp", Tree.arr [])]
          "pgp" (.arr (addDedup "fp" pgpEntryOfFp
            (fun p => String.mk (stripSpaces p))
            (splitOnChar ',' ("f1" : String).data) [])))))) ∧
    (add_new_master_keys
        [("sops", Tree.map [("kms", Tree.arr [Tree.map
          [("arn", Tree.scalar (.vstr "k0")), ("enc", Tree.scalar (.vstr "E"))]])])]
        "k1+arn:aws:iam::r1" "" =
      .ok [("sops", Tree.map [("kms", Tree.arr [Tree.map
          [("arn", Tree.scalar (.vstr "k0")), ("enc", Tree.scalar (.vstr "E"))],
        Tree.map [("arn", Tree.scalar (.vstr "k1")),
          ("role", Tree.scalar (.vstr "arn:aws:iam::r1"))]])])]) ∧
    (remove_master_keys
        [("sops", Tree.map [("kms", Tree.arr [Tree.map
          [("arn", Tree.scalar (.vstr "k0")), ("enc", Tree.scalar (.vstr "E"))],
        Tree.map [("arn", Tree.scalar (.vstr "k1")),
          ("role", Tree.scalar (.vstr "arn:aws:iam::r1"))]])])]
        "k1+arn:aws:iam::r1" "" =
      .ok [("sops", Tree.map [("kms", Tree.arr [Tree.map
          [("arn", Tree.scalar (.vstr "k0")),
            ("enc", Tree.scalar (.vstr "E"))]])])]) ∧
    (add_new_master_keys
        [("sops", Tree.map [("kms", Tree.arr [Tree.map
          [("arn", Tree.scalar (.vstr "k0")), ("enc", Tree.scalar (.vstr "E"))],
        Tree.map [("arn", Tree.scalar (.vstr "k1")),
          ("role", Tree.scalar (.vstr "arn:aws:iam::r1"))]])])]
        "k1+arn:aws:iam::r1" "" =
      .ok [("sops", Tree.map [("kms", Tree.arr [Tree.map
          [("arn", Tree.scalar (.vstr "k0")), ("enc", Tree.scalar (.vstr "E"))],
        Tree.map [("arn", Tree.scalar (.vstr "k1")),
          ("role", Tree.scalar (.vstr "arn:aws:iam::r1"))]])])]) := by
  have h := C8_add_dedupe_and_role_split
    [("sops", Tree.map [("kms", Tree.arr [Tree.map
      [("arn", Tree.scalar (.vstr "k0")), ("enc", Tree.scalar (.vstr "E"))]]),
      ("pgp", Tree.arr [])])]
    [("kms", Tree.arr [Tree.map
      [("arn", Tree.scalar (.vstr "k0")), ("enc", Tree.scalar (.vstr "E"))]]),
      ("pgp", Tree.arr [])]
    [Tree.map [("arn", Tree.scalar (.vstr "k0")), ("enc", Tree.scalar (.vstr "E"))]]
    [] "k1+arn:aws:iam::r1" "f1"
    rfl rfl rfl
    (by
      intro e he
      cases he with
      | head => exact ⟨_, rfl, Or.inr rfl⟩
      | tail _ h2 => cases h2)
    (fun e he => absurd he (List.not_mem_nil e))
    (by decide) (by decide)
  exact ⟨h.1, h.2.1, h.2.2.1, h.2.2.2.1, h.2.2.2.2⟩

set_option maxRecDepth 20000 in
/-- `C8` counterexample: removal does not delete exactly the entries
whose `arn` matches.  On the list `[{}, {arn: "a"}]` (a falsy entry
followed by the matching one), removing `"a"` deletes the *falsy* entry
— the `continue` for falsy entries skips the manual `i += 1`, so `del`
uses a stale index — and the entry whose `arn` was given survives. -/
theorem C8_counterexample_falsy_index_skew :
    remove_master_keys
        [("sops", Tree.map [("kms", Tree.arr
          [Tree.map [], Tree.map [("arn", Tree.scalar (.vstr "a"))]])])]
        "a" "" =
      .ok [("sops", Tree.map [("kms", Tree.arr
        [Tree.map [("arn", Tree.scalar (.vstr "a"))]])])] := rfl

/-! ## Re-wrapping the data key: update_master_keys (C9) -/

end Sops
